import Mathlib

/-!
Verification of `src/utils/mermaid_formatter.py`.

Strings are modelled as `List Char`.  Each Python function is translated into an
executable Lean definition with the same name; regex operations are specialised
to the concrete patterns appearing in the source:

* `clean_node_labels` uses `re.sub(r'\["([^"]*?)\n([^"]*?)"\]', r'["\1 \2"]', ·)`
  (one initial pass, then a `while re.search` loop).  A match of that pattern at
  a position requires the literal `["`, then (lazy groups) characters without a
  double quote up to a first line break, more characters without a double quote,
  then the literal `"]`.  Because both groups exclude `"`, a match at a position
  exists exactly when the first `"` after the opening `["` is followed by `]`
  and a line break occurs before it; the replacement rewrites the first line
  break of the span to a space.  `re.sub` rewrites all non-overlapping matches
  left to right, resuming after each match.
-/

namespace MermaidFormatter

/-- Scan for the closing `"]` of a label span: returns the characters before the
first `"` together with the text after `"]`, provided that first `"` is
immediately followed by `]`. -/
def findLabel : List Char → Option (List Char × List Char)
  | [] => none
  | c :: rest =>
    if c = '\"' then
      match rest with
      | [] => none
      | d :: tail => if d = ']' then some ([], tail) else none
    else (findLabel rest).map (fun p => (c :: p.1, p.2))

theorem findLabel_nil : findLabel [] = none := rfl

theorem findLabel_quote_pair (tail : List Char) :
    findLabel ('\"' :: ']' :: tail) = some ([], tail) := by
  rw [findLabel, if_pos rfl]
  exact if_pos rfl

theorem findLabel_quote_nil : findLabel ['\"'] = none := by
  rw [findLabel, if_pos rfl]

theorem findLabel_quote_cons {d : Char} (rest : List Char) (hd : d ≠ ']') :
    findLabel ('\"' :: d :: rest) = none := by
  rw [findLabel, if_pos rfl]
  exact if_neg hd

theorem findLabel_cons {c : Char} (rest : List Char) (hc : c ≠ '\"') :
    findLabel (c :: rest) = (findLabel rest).map (fun p => (c :: p.1, p.2)) := by
  rw [findLabel.eq_def]
  exact if_neg hc

theorem findLabel_some : ∀ {l pre tail}, findLabel l = some (pre, tail) →
    l = pre ++ '\"' :: ']' :: tail ∧ '\"' ∉ pre := by
  intro l
  induction l with
  | nil => intro pre tail h; rw [findLabel_nil] at h; exact absurd h (by simp)
  | cons c rest ih =>
    intro pre tail h
    by_cases hc : c = '\"'
    · subst hc
      match rest with
      | [] => rw [findLabel_quote_nil] at h; exact absurd h (by simp)
      | d :: rest' =>
        by_cases hd : d = ']'
        · subst hd
          rw [findLabel_quote_pair] at h
          simp only [Option.some.injEq, Prod.mk.injEq] at h
          obtain ⟨h1, h2⟩ := h
          rw [← h1, ← h2]; simp
        · rw [findLabel_quote_cons rest' hd] at h; exact absurd h (by simp)
    · rw [findLabel_cons rest hc] at h
      cases hfl : findLabel rest with
      | none => rw [hfl] at h; exact absurd h (by simp)
      | some p =>
        obtain ⟨pre', tail'⟩ := p
        rw [hfl] at h
        simp only [Option.map_some', Option.some.injEq, Prod.mk.injEq] at h
        obtain ⟨h1, h2⟩ := h
        obtain ⟨hr, hq⟩ := ih hfl
        subst h2
        rw [← h1]
        refine ⟨by rw [hr]; simp, ?_⟩
        simp only [List.mem_cons, not_or]
        exact ⟨fun hcq => hc hcq.symm, hq⟩

theorem findLabel_length {l pre tail} (h : findLabel l = some (pre, tail)) :
    l.length = pre.length + tail.length + 2 := by
  have := (findLabel_some h).1
  subst this; simp; omega

theorem findLabel_append {pre : List Char} (tail : List Char) (h : '\"' ∉ pre) :
    findLabel (pre ++ '\"' :: ']' :: tail) = some (pre, tail) := by
  induction pre with
  | nil => exact findLabel_quote_pair tail
  | cons c pre' ih =>
    simp only [List.mem_cons, not_or] at h
    obtain ⟨hc, hpre⟩ := h
    rw [List.cons_append, findLabel_cons _ (fun hcq => hc hcq.symm), ih hpre]
    rfl

/-- Match of the pattern at the head of the text: the literal `["`, a span
without `"` containing a line break, then `"]`.  Returns the span and the text
after the match. -/
def matchHere : List Char → Option (List Char × List Char)
  | c1 :: c2 :: rest =>
    if c1 = '[' ∧ c2 = '\"' then
      (findLabel rest).bind (fun p => if p.1.contains '\n' then some p else none)
    else none
  | _ => none

theorem matchHere_nil : matchHere [] = none := rfl

theorem matchHere_single (c : Char) : matchHere [c] = none := rfl

theorem matchHere_pair (c1 c2 : Char) (rest : List Char) (h : ¬(c1 = '[' ∧ c2 = '\"')) :
    matchHere (c1 :: c2 :: rest) = none := by
  rw [matchHere, if_neg h]

theorem matchHere_open (rest : List Char) :
    matchHere ('[' :: '\"' :: rest) =
      (findLabel rest).bind (fun p => if p.1.contains '\n' then some p else none) := by
  rw [matchHere, if_pos ⟨rfl, rfl⟩]

theorem matchHere_some {s pre tail} (h : matchHere s = some (pre, tail)) :
    s = '[' :: '\"' :: (pre ++ '\"' :: ']' :: tail) ∧ '\"' ∉ pre ∧
      pre.contains '\n' = true := by
  match s with
  | [] => rw [matchHere_nil] at h; exact absurd h (by simp)
  | [c] => rw [matchHere_single] at h; exact absurd h (by simp)
  | c1 :: c2 :: rest =>
    by_cases hc : c1 = '[' ∧ c2 = '\"'
    · obtain ⟨h1, h2⟩ := hc
      subst h1; subst h2
      rw [matchHere_open] at h
      cases hfl : findLabel rest with
      | none => rw [hfl] at h; exact absurd h (by simp)
      | some p =>
        obtain ⟨pre', tail'⟩ := p
        rw [hfl, Option.some_bind] at h
        by_cases hnl : (pre', tail').1.contains '\n'
        · rw [if_pos hnl] at h
          simp only [Option.some.injEq, Prod.mk.injEq] at h
          obtain ⟨hp, ht⟩ := h
          subst hp; subst ht
          obtain ⟨hr, hq⟩ := findLabel_some hfl
          exact ⟨by rw [hr], hq, hnl⟩
        · rw [if_neg hnl] at h; exact absurd h (by simp)
    · rw [matchHere_pair _ _ _ hc] at h; exact absurd h (by simp)

theorem matchHere_of {pre : List Char} (tail : List Char) (hq : '\"' ∉ pre)
    (hnl : pre.contains '\n' = true) :
    matchHere ('[' :: '\"' :: (pre ++ '\"' :: ']' :: tail)) = some (pre, tail) := by
  rw [matchHere_open, findLabel_append tail hq, Option.some_bind]
  exact if_pos hnl

theorem matchHere_length {s pre tail} (h : matchHere s = some (pre, tail)) :
    s.length = pre.length + tail.length + 4 := by
  have := (matchHere_some h).1
  subst this; simp; omega

/-- Replace the first line break by a space (the effect of the replacement
template `["\1 \2"]` on the span `\1\n\2`). -/
def replFirstNl : List Char → List Char
  | [] => []
  | c :: rest => if c = '\n' then ' ' :: rest else c :: replFirstNl rest

/-- One full pass of `re.sub` with the label pattern: rewrite all
non-overlapping matches left to right. -/
def reSubAux : List Char → List Char
  | [] => []
  | c :: rest =>
    match h : matchHere (c :: rest) with
    | some (pre, tail) =>
      '[' :: '\"' :: (replFirstNl pre ++ '\"' :: ']' :: reSubAux tail)
    | none => c :: reSubAux rest
termination_by s => s.length
decreasing_by
  · have := matchHere_length h; simp at this ⊢; omega
  · simp

/-- Model of `re.search` with the label pattern: does a match exist at any
position? -/
def reSearchAux : List Char → Bool
  | [] => false
  | c :: rest => (matchHere (c :: rest)).isSome || reSearchAux rest

theorem reSearchAux_cons (c : Char) (rest : List Char) :
    reSearchAux (c :: rest) = ((matchHere (c :: rest)).isSome || reSearchAux rest) := by
  rw [reSearchAux]

theorem reSubAux_nil : reSubAux [] = [] := by rw [reSubAux]

theorem reSubAux_cons_some {c : Char} {rest pre tail : List Char}
    (h : matchHere (c :: rest) = some (pre, tail)) :
    reSubAux (c :: rest) =
      '[' :: '\"' :: (replFirstNl pre ++ '\"' :: ']' :: reSubAux tail) := by
  rw [reSubAux.eq_def]
  split
  · next heq => exact absurd heq (by simp)
  · next d tail2 heq =>
    injection heq with h1 h2
    subst h1; subst h2
    split
    · next pre' tail' heq2 =>
      rw [h] at heq2
      injection heq2 with h3
      injection h3 with h4 h5
      subst h4; subst h5
      rfl
    · next heq2 => rw [h] at heq2; exact absurd heq2 (by simp)

theorem reSubAux_cons_none {c : Char} {rest : List Char}
    (h : matchHere (c :: rest) = none) :
    reSubAux (c :: rest) = c :: reSubAux rest := by
  rw [reSubAux.eq_def]
  split
  · next heq => exact absurd heq (by simp)
  · next d tail2 heq =>
    injection heq with h1 h2
    subst h1; subst h2
    split
    · next pre' tail' heq2 => rw [h] at heq2; exact absurd heq2 (by simp)
    · rfl

/-- Number of line-break characters in the text. -/
def nlCount : List Char → Nat
  | [] => 0
  | c :: rest => (if c = '\n' then 1 else 0) + nlCount rest

theorem nlCount_cons (c : Char) (rest : List Char) :
    nlCount (c :: rest) = (if c = '\n' then 1 else 0) + nlCount rest := by
  rw [nlCount]

theorem nlCount_append (a b : List Char) :
    nlCount (a ++ b) = nlCount a + nlCount b := by
  induction a with
  | nil => rw [List.nil_append, nlCount]; omega
  | cons c a ih => rw [List.cons_append, nlCount_cons, nlCount_cons, ih]; omega

theorem nlCount_span (pre X : List Char) :
    nlCount ('[' :: '\"' :: (pre ++ '\"' :: ']' :: X)) = nlCount pre + nlCount X := by
  rw [nlCount_cons, nlCount_cons, nlCount_append, nlCount_cons, nlCount_cons,
    if_neg (by decide : ¬('[' : Char) = '\n'), if_neg (by decide : ¬('\"' : Char) = '\n'),
    if_neg (by decide : ¬(']' : Char) = '\n')]
  omega

theorem replFirstNl_nl {pre : List Char} (h : pre.contains '\n' = true) :
    nlCount (replFirstNl pre) + 1 = nlCount pre := by
  induction pre with
  | nil => simp [List.contains] at h
  | cons c rest ih =>
    by_cases hc : c = '\n'
    · subst hc
      rw [replFirstNl, if_pos rfl, nlCount_cons, nlCount_cons, if_pos rfl,
        if_neg (by decide : ¬(' ' : Char) = '\n')]
      omega
    · rw [replFirstNl, if_neg hc, nlCount_cons, nlCount_cons, if_neg hc]
      have hrest : rest.contains '\n' = true := by
        rw [List.contains_cons] at h
        rcases Bool.or_eq_true_iff.mp h with h1 | h1
        · exact absurd (beq_iff_eq.mp h1).symm hc
        · exact h1
      have := ih hrest
      omega

theorem reSubAux_nl_le (s : List Char) : nlCount (reSubAux s) ≤ nlCount s := by
  induction s using reSubAux.induct with
  | case1 => rw [reSubAux_nil]
  | case2 c rest pre tail h ih =>
    obtain ⟨hs, hq, hnl⟩ := matchHere_some h
    rw [reSubAux_cons_some h, hs, nlCount_span, nlCount_span]
    have := replFirstNl_nl hnl
    omega
  | case3 c rest h ih =>
    rw [reSubAux_cons_none h, nlCount_cons, nlCount_cons]
    omega

theorem reSubAux_nl_lt {s : List Char} (hs : reSearchAux s = true) :
    nlCount (reSubAux s) < nlCount s := by
  induction s using reSubAux.induct with
  | case1 => rw [reSearchAux] at hs; exact absurd hs (by simp)
  | case2 c rest pre tail h ih =>
    obtain ⟨hdec, hq, hnl⟩ := matchHere_some h
    rw [reSubAux_cons_some h, hdec, nlCount_span, nlCount_span]
    have h1 := replFirstNl_nl hnl
    have h2 := reSubAux_nl_le tail
    omega
  | case3 c rest h ih =>
    rw [reSearchAux_cons, h] at hs
    simp only [Option.isSome_none, Bool.false_or] at hs
    rw [reSubAux_cons_none h, nlCount_cons, nlCount_cons]
    have := ih hs
    omega

theorem reSubAux_eq_self {s : List Char} (hs : reSearchAux s = false) :
    reSubAux s = s := by
  induction s using reSubAux.induct with
  | case1 => rw [reSubAux_nil]
  | case2 c rest pre tail h ih =>
    rw [reSearchAux_cons, h] at hs
    exact absurd hs (by simp)
  | case3 c rest h ih =>
    rw [reSearchAux_cons, h] at hs
    simp only [Option.isSome_none, Bool.false_or] at hs
    rw [reSubAux_cons_none h, ih hs]

/-- The property the spec forbids in cleaned output: a double-quoted bracketed
label span `["…"]` (no inner `"` in the span) with an embedded raw line
break. -/
def hasBadLabelP (s : List Char) : Prop :=
  ∃ a pre b, s = a ++ '[' :: '\"' :: (pre ++ '\"' :: ']' :: b) ∧ '\"' ∉ pre ∧ '\n' ∈ pre

theorem reSearch_iff_bad (s : List Char) : reSearchAux s = true ↔ hasBadLabelP s := by
  constructor
  · intro hs
    induction s with
    | nil => rw [reSearchAux] at hs; exact absurd hs (by simp)
    | cons c rest ih =>
      rw [reSearchAux_cons] at hs
      rcases Bool.or_eq_true_iff.mp hs with h1 | h1
      · rw [Option.isSome_iff_exists] at h1
        obtain ⟨⟨pre, tail⟩, hm⟩ := h1
        obtain ⟨hdec, hq, hnl⟩ := matchHere_some hm
        exact ⟨[], pre, tail, by rw [List.nil_append, hdec], hq, List.elem_iff.mp hnl⟩
      · obtain ⟨a, pre, b, hdec, hq, hnl⟩ := ih h1
        exact ⟨c :: a, pre, b, by rw [hdec, List.cons_append], hq, hnl⟩
  · rintro ⟨a, pre, b, hdec, hq, hnl⟩
    subst hdec
    induction a with
    | nil =>
      rw [List.nil_append, reSearchAux_cons,
        matchHere_of b hq (List.elem_iff.mpr hnl)]
      simp
    | cons c a ih =>
      rw [List.cons_append, reSearchAux_cons, ih]
      simp

/-- The `while re.search(...): re.sub(...)` loop of `clean_node_labels`. -/
def cleanLoop (s : List Char) : List Char :=
  if h : reSearchAux s then cleanLoop (reSubAux s) else s
termination_by nlCount s
decreasing_by exact reSubAux_nl_lt h

theorem cleanLoop_of_search {s : List Char} (h : reSearchAux s = true) :
    cleanLoop s = cleanLoop (reSubAux s) := by
  rw [cleanLoop, dif_pos h]

theorem cleanLoop_of_none {s : List Char} (h : reSearchAux s = false) :
    cleanLoop s = s := by
  rw [cleanLoop, dif_neg (by rw [h]; exact Bool.false_ne_true)]

theorem reSearch_cleanLoop (s : List Char) : reSearchAux (cleanLoop s) = false := by
  induction s using cleanLoop.induct with
  | case1 s h ih => rw [cleanLoop_of_search h]; exact ih
  | case2 s h =>
    rw [Bool.not_eq_true] at h
    rw [cleanLoop_of_none h]; exact h

/-- Model of `clean_node_labels`: one initial substitution pass, then the
rewrite loop until no match remains. -/
def clean_node_labels (s : List Char) : List Char := cleanLoop (reSubAux s)

theorem reSearch_clean (s : List Char) :
    reSearchAux (clean_node_labels s) = false :=
  reSearch_cleanLoop (reSubAux s)

theorem clean_eq_self {s : List Char} (h : reSearchAux s = false) :
    clean_node_labels s = s := by
  rw [clean_node_labels, reSubAux_eq_self h, cleanLoop_of_none h]

theorem clean_idem (s : List Char) :
    clean_node_labels (clean_node_labels s) = clean_node_labels s :=
  clean_eq_self (reSearch_clean s)

/-- Fuel-bounded version of the rewrite loop, used to state that the loop of
`clean_node_labels` always finishes within a number of iterations bounded by
the line-break count of the text. -/
def cleanFuel : Nat → List Char → List Char
  | 0, s => s
  | k + 1, s => if reSearchAux s then cleanFuel k (reSubAux s) else s

theorem cleanLoop_eq_fuel : ∀ k s, nlCount s < k → cleanLoop s = cleanFuel k s := by
  intro k
  induction k with
  | zero => intro s h; omega
  | succ k ih =>
    intro s h
    by_cases hs : reSearchAux s
    · rw [cleanLoop_of_search hs, cleanFuel, if_pos hs]
      exact ih (reSubAux s) (by have := reSubAux_nl_lt hs; omega)
    · rw [Bool.not_eq_true] at hs
      rw [cleanLoop_of_none hs, cleanFuel, if_neg (by rw [hs]; exact Bool.false_ne_true)]

/-- Pointwise relation between two texts of the same length: each character
pair is related by `R`.  Used to track that a rewriting pass only substitutes
individual characters (line break to space, tilde to angle bracket) at fixed
positions. -/
inductive Ptw (R : Char → Char → Prop) : List Char → List Char → Prop
  | nil : Ptw R [] []
  | cons {c d : Char} {s t : List Char} : R c d → Ptw R s t → Ptw R (c :: s) (d :: t)

theorem Ptw.refl {R : Char → Char → Prop} (hR : ∀ c, R c c) :
    ∀ s, Ptw R s s := by
  intro s
  induction s with
  | nil => exact Ptw.nil
  | cons c rest ih => exact Ptw.cons (hR c) ih

theorem Ptw.append {R : Char → Char → Prop} {a b c d : List Char}
    (h1 : Ptw R a b) (h2 : Ptw R c d) : Ptw R (a ++ c) (b ++ d) := by
  induction h1 with
  | nil => exact h2
  | cons hr _ ih => exact Ptw.cons hr ih

theorem Ptw.trans {R : Char → Char → Prop}
    (hR : ∀ c d e, R c d → R d e → R c e) :
    ∀ {a b c : List Char}, Ptw R a b → Ptw R b c → Ptw R a c := by
  intro a b c h1 h2
  induction h1 generalizing c with
  | nil => cases h2; exact Ptw.nil
  | cons hr _ ih =>
    cases h2 with
    | cons hr2 htl2 => exact Ptw.cons (hR _ _ _ hr hr2) (ih htl2)

theorem Ptw.append_split {R : Char → Char → Prop} :
    ∀ {x : List Char} {s y : List Char}, Ptw R s (x ++ y) →
      ∃ s1 s2, s = s1 ++ s2 ∧ Ptw R s1 x ∧ Ptw R s2 y := by
  intro x
  induction x with
  | nil => intro s y h; exact ⟨[], s, rfl, Ptw.nil, h⟩
  | cons c xrest ih =>
    intro s y h
    cases h with
    | cons hr htl =>
      obtain ⟨s1, s2, hdec, h1, h2⟩ := ih htl
      next d s' =>
        exact ⟨d :: s1, s2, by rw [hdec, List.cons_append], Ptw.cons hr h1, h2⟩

theorem Ptw.cons_split {R : Char → Char → Prop} {s : List Char} {c : Char}
    {y : List Char} (h : Ptw R s (c :: y)) :
    ∃ d s2, s = d :: s2 ∧ R d c ∧ Ptw R s2 y := by
  cases h with
  | cons hr htl => next d s' => exact ⟨d, s', rfl, hr, htl⟩

/-- The character substitution performed by the label sanitizer: a position is
unchanged or rewrites a line break to a space. -/
def Rnl (c d : Char) : Prop := c = d ∨ (c = '\n' ∧ d = ' ')

theorem Rnl_refl (c : Char) : Rnl c c := Or.inl rfl

theorem Rnl_trans (c d e : Char) (h1 : Rnl c d) (h2 : Rnl d e) : Rnl c e := by
  rcases h1 with rfl | ⟨rfl, rfl⟩
  · exact h2
  · rcases h2 with rfl | ⟨h2, _⟩
    · exact Or.inr ⟨rfl, rfl⟩
    · exact absurd h2 (by decide)

theorem replFirstNl_ptw (pre : List Char) : Ptw Rnl pre (replFirstNl pre) := by
  induction pre with
  | nil => exact Ptw.nil
  | cons c rest ih =>
    by_cases hc : c = '\n'
    · subst hc
      rw [replFirstNl, if_pos rfl]
      exact Ptw.cons (Or.inr ⟨rfl, rfl⟩) (Ptw.refl Rnl_refl rest)
    · rw [replFirstNl, if_neg hc]
      exact Ptw.cons (Rnl_refl c) ih

theorem reSubAux_ptw (s : List Char) : Ptw Rnl s (reSubAux s) := by
  induction s using reSubAux.induct with
  | case1 => rw [reSubAux_nil]; exact Ptw.nil
  | case2 c rest pre tail h ih =>
    obtain ⟨hdec, hq, hnl⟩ := matchHere_some h
    rw [reSubAux_cons_some h, hdec]
    exact Ptw.cons (Rnl_refl '[') (Ptw.cons (Rnl_refl '\"')
      (Ptw.append (replFirstNl_ptw pre)
        (Ptw.cons (Rnl_refl '\"') (Ptw.cons (Rnl_refl ']') ih))))
  | case3 c rest h ih =>
    rw [reSubAux_cons_none h]
    exact Ptw.cons (Rnl_refl c) ih

theorem cleanLoop_ptw (s : List Char) : Ptw Rnl s (cleanLoop s) := by
  induction s using cleanLoop.induct with
  | case1 s h ih =>
    rw [cleanLoop_of_search h]
    exact Ptw.trans Rnl_trans (reSubAux_ptw s) ih
  | case2 s h =>
    rw [Bool.not_eq_true] at h
    rw [cleanLoop_of_none h]
    exact Ptw.refl Rnl_refl s

theorem clean_ptw (s : List Char) : Ptw Rnl s (clean_node_labels s) :=
  Ptw.trans Rnl_trans (reSubAux_ptw s) (cleanLoop_ptw (reSubAux s))

/-- Python's substring test `pat in s`. -/
def containsStr (pat : List Char) : List Char → Bool
  | [] => pat.isEmpty
  | c :: rest => pat.isPrefixOf (c :: rest) || containsStr pat rest

theorem containsStr_nil (pat : List Char) : containsStr pat [] = pat.isEmpty := by
  rw [containsStr]

theorem containsStr_cons (pat : List Char) (c : Char) (rest : List Char) :
    containsStr pat (c :: rest) = (pat.isPrefixOf (c :: rest) || containsStr pat rest) := by
  rw [containsStr]

theorem containsStr_iff {pat : List Char} (hpat : pat ≠ []) (s : List Char) :
    containsStr pat s = true ↔ ∃ a b, s = a ++ pat ++ b := by
  induction s with
  | nil =>
    rw [containsStr_nil]
    constructor
    · intro h; exact absurd (List.isEmpty_iff.mp h) hpat
    · rintro ⟨a, b, hdec⟩
      rcases List.append_eq_nil.mp (List.append_eq_nil.mp hdec.symm).1 with ⟨_, h2⟩
      exact absurd h2 hpat
  | cons c rest ih =>
    rw [containsStr_cons]
    constructor
    · intro h
      rcases Bool.or_eq_true_iff.mp h with h1 | h1
      · obtain ⟨t, ht⟩ := List.isPrefixOf_iff_prefix.mp h1
        exact ⟨[], t, by rw [List.nil_append, ht]⟩
      · obtain ⟨a, b, hdec⟩ := ih.mp h1
        exact ⟨c :: a, b, by rw [hdec]; simp⟩
    · rintro ⟨a, b, hdec⟩
      cases a with
      | nil =>
        apply Bool.or_eq_true_iff.mpr
        left
        rw [List.nil_append] at hdec
        exact List.isPrefixOf_iff_prefix.mpr ⟨b, hdec.symm⟩
      | cons a0 arest =>
        apply Bool.or_eq_true_iff.mpr
        right
        simp only [List.cons_append, List.append_assoc, List.cons.injEq] at hdec
        refine ih.mpr ⟨arest, b, ?_⟩
        rw [hdec.2]; simp

/-- Python's `s.replace(old, "")` for a non-empty pattern `old = p :: ps`:
remove all non-overlapping occurrences, scanning left to right. -/
def removeAll (p : Char) (ps : List Char) : List Char → List Char
  | [] => []
  | c :: rest =>
    if (p :: ps).isPrefixOf (c :: rest) then removeAll p ps (rest.drop ps.length)
    else c :: removeAll p ps rest
termination_by s => s.length
decreasing_by
  · simp only [List.length_drop, List.length_cons]; omega
  · simp only [List.length_cons]; omega

theorem removeAll_nil (p : Char) (ps : List Char) : removeAll p ps [] = [] := by
  rw [removeAll]

theorem removeAll_cons_pos {p : Char} {ps : List Char} {c : Char} {rest : List Char}
    (h : (p :: ps).isPrefixOf (c :: rest) = true) :
    removeAll p ps (c :: rest) = removeAll p ps (rest.drop ps.length) := by
  rw [removeAll.eq_def]
  exact if_pos h

theorem removeAll_cons_neg {p : Char} {ps : List Char} {c : Char} {rest : List Char}
    (h : ¬(p :: ps).isPrefixOf (c :: rest) = true) :
    removeAll p ps (c :: rest) = c :: removeAll p ps rest := by
  rw [removeAll.eq_def]
  exact if_neg h

theorem removeAll_eq_self {p : Char} {ps s : List Char}
    (h : containsStr (p :: ps) s = false) : removeAll p ps s = s := by
  induction s with
  | nil => exact removeAll_nil p ps
  | cons c rest ih =>
    rw [containsStr_cons, Bool.or_eq_false_iff] at h
    rw [removeAll_cons_neg (by rw [h.1]; exact Bool.false_ne_true), ih h.2]

/-- The backtick character (the fence-marker character). -/
def btChar : Char := Char.ofNat 96

/-- The closing-fence token, three backticks. -/
def bt3 : List Char := [btChar, btChar, btChar]

/-- The opening token removed first by `fix_common_issues`. -/
def fenceOpenTok : List Char := bt3 ++ ('m' :: 'e' :: 'r' :: 'm' :: 'a' :: 'i' :: 'd' :: '\n' :: [])

/-- The fence token scanned for by the validator (no trailing newline). -/
def fenceTokV : List Char := bt3 ++ ('m' :: 'e' :: 'r' :: 'm' :: 'a' :: 'i' :: 'd' :: [])

/-- Length of the run of backticks at the head of the text. -/
def leadBt : List Char → Nat
  | [] => 0
  | c :: rest => if c = btChar then leadBt rest + 1 else 0

theorem leadBt_cons (c : Char) (rest : List Char) :
    leadBt (c :: rest) = if c = btChar then leadBt rest + 1 else 0 := by
  rw [leadBt]

theorem bt3_isPrefixOf_iff (s : List Char) :
    bt3.isPrefixOf s = true ↔ ∃ t, s = btChar :: btChar :: btChar :: t := by
  rw [List.isPrefixOf_iff_prefix]
  constructor
  · rintro ⟨t, ht⟩; exact ⟨t, ht.symm⟩
  · rintro ⟨t, ht⟩; exact ⟨t, ht.symm⟩

theorem leadBt_removeAll_bt3 (s : List Char) :
    leadBt (removeAll btChar [btChar, btChar] s) ≤ min (leadBt s) 2 := by
  induction s using removeAll.induct btChar [btChar, btChar] with
  | case1 => rw [removeAll_nil]; simp [leadBt]
  | case2 c rest h ih =>
    obtain ⟨t, ht⟩ := (bt3_isPrefixOf_iff (c :: rest)).mp h
    injection ht with h1 h2
    subst h1; subst h2
    rw [removeAll_cons_pos h]
    have hdrop : List.drop (List.length [btChar, btChar]) (btChar :: btChar :: t) = t := by
      simp
    rw [hdrop] at ih ⊢
    rw [leadBt_cons, if_pos rfl, leadBt_cons, if_pos rfl]
    omega
  | case3 c rest h ih =>
    rw [removeAll_cons_neg h]
    by_cases hc : c = btChar
    · subst hc
      rw [leadBt_cons, if_pos rfl, leadBt_cons, if_pos rfl]
      have hrest : leadBt rest ≤ 1 := by
        cases rest with
        | nil => simp [leadBt]
        | cons d rest' =>
          by_cases hd : d = btChar
          · subst hd
            cases rest' with
            | nil => simp [leadBt]
            | cons e rest'' =>
              by_cases he : e = btChar
              · subst he
                exact absurd ((bt3_isPrefixOf_iff _).mpr ⟨rest'', rfl⟩) h
              · rw [leadBt_cons, if_pos rfl, leadBt_cons, if_neg he]
          · rw [leadBt_cons, if_neg hd]; omega
      omega
    · rw [leadBt_cons, if_neg hc]
      omega

theorem removeAll_bt3_no_triple (s : List Char) :
    containsStr bt3 (removeAll btChar [btChar, btChar] s) = false := by
  induction s using removeAll.induct btChar [btChar, btChar] with
  | case1 => rw [removeAll_nil, containsStr_nil]; rfl
  | case2 c rest h ih =>
    rw [removeAll_cons_pos h]
    exact ih
  | case3 c rest h ih =>
    rw [removeAll_cons_neg h, containsStr_cons, Bool.or_eq_false_iff]
    refine ⟨?_, ih⟩
    by_cases hpre : bt3.isPrefixOf (c :: removeAll btChar [btChar, btChar] rest) = true
    · obtain ⟨t, ht⟩ := (bt3_isPrefixOf_iff _).mp hpre
      injection ht with h1 h2
      subst h1
      have hlb : leadBt (removeAll btChar [btChar, btChar] rest) ≤ 1 := by
        have h1 := leadBt_removeAll_bt3 rest
        have hrest1 : leadBt rest ≤ 1 := by
          cases rest with
          | nil => simp [leadBt]
          | cons d rest' =>
            by_cases hd : d = btChar
            · subst hd
              cases rest' with
              | nil => simp [leadBt]
              | cons e rest'' =>
                by_cases he : e = btChar
                · subst he
                  exact absurd ((bt3_isPrefixOf_iff _).mpr ⟨rest'', rfl⟩) h
                · rw [leadBt_cons, if_pos rfl, leadBt_cons, if_neg he]
            · rw [leadBt_cons, if_neg hd]; omega
        omega
      rw [h2, leadBt_cons, if_pos rfl, leadBt_cons, if_pos rfl] at hlb
      omega
    · rw [Bool.not_eq_true] at hpre; exact hpre

theorem Ptw.eq_of_rigid {R : Char → Char → Prop} :
    ∀ {u v : List Char}, Ptw R u v → (∀ c d, R c d → d ∈ v → c = d) → u = v := by
  intro u v h
  induction h with
  | nil => intro _; rfl
  | cons hr htl ih =>
    intro hrig
    next c d s t =>
      rw [hrig c d hr (List.mem_cons_self d t),
        ih (fun c' d' hr' hd' => hrig c' d' hr' (List.mem_cons_of_mem d hd'))]

theorem Ptw.mem_left {R : Char → Char → Prop} :
    ∀ {u v : List Char}, Ptw R u v → ∀ c ∈ u, ∃ d ∈ v, R c d := by
  intro u v h
  induction h with
  | nil => intro c hc; exact absurd hc (by simp)
  | cons hr htl ih =>
    intro c' hc'
    next c d s t =>
      rcases List.mem_cons.mp hc' with rfl | hc'
      · exact ⟨d, List.mem_cons_self d t, hr⟩
      · obtain ⟨d', hd', hr'⟩ := ih c' hc'
        exact ⟨d', List.mem_cons_of_mem d hd', hr'⟩

theorem Ptw.mem_right {R : Char → Char → Prop} :
    ∀ {u v : List Char}, Ptw R u v → ∀ d ∈ v, ∃ c ∈ u, R c d := by
  intro u v h
  induction h with
  | nil => intro d hd; exact absurd hd (by simp)
  | cons hr htl ih =>
    intro d' hd'
    next c d s t =>
      rcases List.mem_cons.mp hd' with rfl | hd'
      · exact ⟨c, List.mem_cons_self c s, hr⟩
      · obtain ⟨c', hc', hr'⟩ := ih d' hd'
        exact ⟨c', List.mem_cons_of_mem c hc', hr'⟩

/-- A pattern occurrence transfers backwards along a pointwise relation whose
pairs fix every character of the pattern. -/
theorem Ptw.containsStr_transfer {R : Char → Char → Prop} {pat : List Char}
    (hpat : pat ≠ []) (hrig : ∀ c d, R c d → d ∈ pat → c = d) :
    ∀ {s t : List Char}, Ptw R s t → containsStr pat t = true →
      containsStr pat s = true := by
  intro s t hst h
  obtain ⟨a, b, hdec⟩ := (containsStr_iff hpat t).mp h
  subst hdec
  obtain ⟨s1, s2, hdec1, h1, h2⟩ := Ptw.append_split hst
  obtain ⟨s3, s4, hdec2, h3, h4⟩ := Ptw.append_split h1
  have hs4 : s4 = pat := Ptw.eq_of_rigid h4 hrig
  subst hs4
  exact (containsStr_iff hpat s).mpr ⟨s3, s2, by rw [hdec1, hdec2]⟩

/-- A bad label span transfers backwards along a pointwise relation that fixes
the bracket, quote and line-break characters in both directions. -/
theorem Ptw.bad_transfer {R : Char → Char → Prop}
    (hrig : ∀ c d, R c d → (d = '[' ∨ d = '\"' ∨ d = ']' ∨ d = '\n') → c = d)
    (hq : ∀ c d, R c d → c = '\"' → d = '\"') :
    ∀ {s t : List Char}, Ptw R s t → hasBadLabelP t → hasBadLabelP s := by
  intro s t hst hbad
  obtain ⟨a, pre, b, hdec, hnq, hnl⟩ := hbad
  subst hdec
  obtain ⟨s1, s2, hd1, h1, h2⟩ := Ptw.append_split hst
  obtain ⟨c1, s3, hd2, hr1, h3⟩ := Ptw.cons_split h2
  obtain ⟨c2, s4, hd3, hr2, h4⟩ := Ptw.cons_split h3
  obtain ⟨s5, s6, hd4, h5, h6⟩ := Ptw.append_split h4
  obtain ⟨c3, s7, hd5, hr3, h7⟩ := Ptw.cons_split h6
  obtain ⟨c4, s8, hd6, hr4, h8⟩ := Ptw.cons_split h7
  have hc1 : c1 = '[' := hrig _ _ hr1 (Or.inl rfl)
  have hc2 : c2 = '\"' := hrig _ _ hr2 (Or.inr (Or.inl rfl))
  have hc3 : c3 = '\"' := hrig _ _ hr3 (Or.inr (Or.inl rfl))
  have hc4 : c4 = ']' := hrig _ _ hr4 (Or.inr (Or.inr (Or.inl rfl)))
  refine ⟨s1, s5, s8, ?_, ?_, ?_⟩
  · rw [hd1, hd2, hd3, hd4, hd5, hd6, hc1, hc2, hc3, hc4]
  · intro hmem
    obtain ⟨d, hd, hrd⟩ := Ptw.mem_left h5 '\"' hmem
    have : d = '\"' := hq _ _ hrd rfl
    exact hnq (this ▸ hd)
  · obtain ⟨c, hc, hrc⟩ := Ptw.mem_right h5 '\n' hnl
    have : c = '\n' := hrig _ _ hrc (Or.inr (Or.inr (Or.inr rfl)))
    rw [← this]; exact hc

theorem containsStr_infix {pat u v w : List Char} (hpat : pat ≠ [])
    (h : containsStr pat v = true) : containsStr pat (u ++ v ++ w) = true := by
  obtain ⟨a, b, hdec⟩ := (containsStr_iff hpat v).mp h
  exact (containsStr_iff hpat _).mpr ⟨u ++ a, b ++ w, by rw [hdec]; simp⟩

theorem hasBadLabelP_infix {u v w : List Char} (h : hasBadLabelP v) :
    hasBadLabelP (u ++ v ++ w) := by
  obtain ⟨a, pre, b, hdec, hnq, hnl⟩ := h
  exact ⟨u ++ a, pre, b ++ w, by rw [hdec]; simp, hnq, hnl⟩

/-- Python's whitespace test used by `str.strip()` (restricted to the ASCII
whitespace characters; the inputs of this program contain no other
whitespace). -/
def isPySpace (c : Char) : Bool :=
  c = ' ' || c = '\t' || c = '\n' || c = '\r' || c = Char.ofNat 11 || c = Char.ofNat 12

/-- Python's `s.strip()`: remove leading and trailing whitespace. -/
def pyStrip (s : List Char) : List Char :=
  ((s.dropWhile isPySpace).reverse.dropWhile isPySpace).reverse

theorem dropWhile_idem (p : Char → Bool) (l : List Char) :
    (l.dropWhile p).dropWhile p = l.dropWhile p := by
  induction l with
  | nil => rfl
  | cons c rest ih =>
    rw [List.dropWhile_cons]
    by_cases hc : p c = true
    · rw [if_pos hc]; exact ih
    · rw [if_neg hc, List.dropWhile_cons,
        if_neg hc]

theorem head_dropWhile {p : Char → Bool} : ∀ {l : List Char} {c : Char} {t : List Char},
    l.dropWhile p = c :: t → p c = false := by
  intro l
  induction l with
  | nil => intro c t h; exact absurd h (by simp)
  | cons a rest ih =>
    intro c t h
    rw [List.dropWhile_cons] at h
    by_cases ha : p a = true
    · rw [if_pos ha] at h; exact ih h
    · rw [if_neg ha] at h
      injection h with h1 _
      subst h1
      rw [Bool.not_eq_true] at ha
      exact ha

theorem stripRight_decomp (l : List Char) :
    l = (l.reverse.dropWhile isPySpace).reverse ++ (l.reverse.takeWhile isPySpace).reverse := by
  conv_lhs => rw [← l.reverse_reverse,
    ← List.takeWhile_append_dropWhile isPySpace l.reverse]
  rw [List.reverse_append]

theorem pyStrip_infix (s : List Char) : ∃ u w, s = u ++ pyStrip s ++ w := by
  refine ⟨s.takeWhile isPySpace, ((s.dropWhile isPySpace).reverse.takeWhile isPySpace).reverse, ?_⟩
  rw [pyStrip, List.append_assoc, ← stripRight_decomp (s.dropWhile isPySpace),
    List.takeWhile_append_dropWhile]

theorem pyStrip_idem (s : List Char) : pyStrip (pyStrip s) = pyStrip s := by
  have hB : (pyStrip s).dropWhile isPySpace = pyStrip s := by
    cases hBs : pyStrip s with
    | nil => rfl
    | cons c t =>
      have hA := stripRight_decomp (s.dropWhile isPySpace)
      rw [pyStrip] at hBs
      rw [hBs] at hA
      have hc : isPySpace c = false := head_dropWhile (l := s) hA
      rw [List.dropWhile_cons, if_neg (by rw [hc]; exact Bool.false_ne_true)]
  rw [pyStrip, hB]
  rw [pyStrip]
  rw [List.reverse_reverse, dropWhile_idem]

/-- Scan for the first `~`: returns the characters before it and the text
after it. -/
def findTilde : List Char → Option (List Char × List Char)
  | [] => none
  | c :: rest =>
    if c = '~' then some ([], rest)
    else (findTilde rest).map (fun p => (c :: p.1, p.2))

theorem findTilde_nil : findTilde [] = none := rfl

theorem findTilde_cons_tilde (rest : List Char) : findTilde ('~' :: rest) = some ([], rest) := by
  rw [findTilde, if_pos rfl]

theorem findTilde_cons {c : Char} (rest : List Char) (hc : c ≠ '~') :
    findTilde (c :: rest) = (findTilde rest).map (fun p => (c :: p.1, p.2)) := by
  rw [findTilde.eq_def]
  exact if_neg hc

theorem findTilde_some : ∀ {l g1 tail}, findTilde l = some (g1, tail) →
    l = g1 ++ '~' :: tail ∧ '~' ∉ g1 := by
  intro l
  induction l with
  | nil => intro g1 tail h; exact absurd h (by simp [findTilde_nil])
  | cons c rest ih =>
    intro g1 tail h
    by_cases hc : c = '~'
    · subst hc
      rw [findTilde_cons_tilde] at h
      simp only [Option.some.injEq, Prod.mk.injEq] at h
      rw [← h.1, ← h.2]; simp
    · rw [findTilde_cons rest hc] at h
      cases hfl : findTilde rest with
      | none => rw [hfl] at h; exact absurd h (by simp)
      | some p =>
        obtain ⟨g1', tail'⟩ := p
        rw [hfl] at h
        simp only [Option.map_some', Option.some.injEq, Prod.mk.injEq] at h
        obtain ⟨h1, h2⟩ := h
        obtain ⟨hr, hq⟩ := ih hfl
        subst h2
        rw [← h1]
        refine ⟨by rw [hr]; simp, ?_⟩
        simp only [List.mem_cons, not_or]
        exact ⟨fun hcq => hc hcq.symm, hq⟩

theorem findTilde_length {l g1 tail : List Char} (h : findTilde l = some (g1, tail)) :
    l.length = g1.length + tail.length + 1 := by
  have := (findTilde_some h).1
  subst this; simp; omega

theorem findTilde_append {g1 : List Char} (tail : List Char) (h : '~' ∉ g1) :
    findTilde (g1 ++ '~' :: tail) = some (g1, tail) := by
  induction g1 with
  | nil => exact findTilde_cons_tilde tail
  | cons c g1' ih =>
    simp only [List.mem_cons, not_or] at h
    obtain ⟨hc, hg⟩ := h
    rw [List.cons_append, findTilde_cons _ (fun hcq => hc hcq.symm), ih hg]
    rfl

theorem findTilde_none_iff (l : List Char) : findTilde l = none ↔ '~' ∉ l := by
  induction l with
  | nil => simp [findTilde_nil]
  | cons c rest ih =>
    by_cases hc : c = '~'
    · subst hc
      rw [findTilde_cons_tilde]
      simp
    · rw [findTilde_cons rest hc]
      cases hfl : findTilde rest with
      | none =>
        simp only [Option.map_none', true_iff]
        rw [hfl] at ih
        simp only [true_iff] at ih
        simp only [List.mem_cons, not_or]
        exact ⟨fun hcq => hc hcq.symm, ih⟩
      | some p =>
        simp only [Option.map_some']
        constructor
        · intro h; exact absurd h (by simp)
        · intro h
          rw [hfl] at ih
          simp only [List.mem_cons, not_or] at h
          exact absurd (ih.mpr h.2) (by simp)

/-- The literal `List~` opening the generic-type marker. -/
def listTildeTok : List Char := 'L' :: 'i' :: 's' :: 't' :: '~' :: []

/-- Match of the marker pattern `List~T~` (`T` non-empty, no `~`) at the head
of the text. -/
def markerHere (s : List Char) : Bool :=
  listTildeTok.isPrefixOf s &&
    (match findTilde (s.drop 5) with
     | some (g1, _) => !g1.isEmpty
     | none => false)

/-- Does the marker pattern match at any position of the text? -/
def hasMarker : List Char → Bool
  | [] => false
  | c :: rest => markerHere (c :: rest) || hasMarker rest

theorem hasMarker_nil : hasMarker [] = false := rfl

theorem hasMarker_cons (c : Char) (rest : List Char) :
    hasMarker (c :: rest) = (markerHere (c :: rest) || hasMarker rest) := by
  rw [hasMarker]

/-- One pass of `re.sub(r'List~([^~]+)~', r'List<\1>', ·)`: rewrite all
non-overlapping marker matches left to right. -/
def tildeSub : List Char → List Char
  | [] => []
  | c :: rest =>
    if listTildeTok.isPrefixOf (c :: rest) then
      match h2 : findTilde ((c :: rest).drop 5) with
      | some (g1, tail) =>
        if g1.isEmpty then c :: tildeSub rest
        else 'L' :: 'i' :: 's' :: 't' :: '<' :: (g1 ++ '>' :: tildeSub tail)
      | none => c :: tildeSub rest
    else c :: tildeSub rest
termination_by s => s.length
decreasing_by
  · simp only [List.length_cons]; omega
  · have h3 := findTilde_length h2
    simp only [List.length_drop, List.length_cons] at h3 ⊢
    omega
  · simp only [List.length_cons]; omega
  · simp only [List.length_cons]; omega

theorem tildeSub_nil : tildeSub [] = [] := by rw [tildeSub]

theorem listTok_isPrefixOf_iff (s : List Char) :
    listTildeTok.isPrefixOf s = true ↔ ∃ t, s = 'L' :: 'i' :: 's' :: 't' :: '~' :: t := by
  rw [List.isPrefixOf_iff_prefix]
  constructor
  · rintro ⟨t, ht⟩; exact ⟨t, ht.symm⟩
  · rintro ⟨t, ht⟩; exact ⟨t, ht.symm⟩

theorem markerHere_eq (s : List Char) :
    markerHere s = (listTildeTok.isPrefixOf s &&
      (match findTilde (s.drop 5) with
       | some (g1, _) => !g1.isEmpty
       | none => false)) := by
  rw [markerHere]

theorem tildeSub_cons_match {c : Char} {rest g1 tail : List Char}
    (h : listTildeTok.isPrefixOf (c :: rest) = true)
    (h2 : findTilde ((c :: rest).drop 5) = some (g1, tail))
    (hg : g1.isEmpty = false) :
    tildeSub (c :: rest) = 'L' :: 'i' :: 's' :: 't' :: '<' :: (g1 ++ '>' :: tildeSub tail) := by
  rw [tildeSub.eq_def]
  split
  · next heq => exact absurd heq (by simp)
  · next d tail0 heq =>
    injection heq with e1 e2
    subst e1; subst e2
    rw [if_pos h]
    split
    · next g1' tail' heq2 =>
      rw [h2] at heq2
      injection heq2 with h3
      injection h3 with h4 h5
      subst h4; subst h5
      rw [if_neg (by rw [hg]; exact Bool.false_ne_true)]
    · next heq2 => rw [h2] at heq2; exact absurd heq2 (by simp)

theorem tildeSub_cons_step {c : Char} {rest : List Char}
    (h : markerHere (c :: rest) = false) :
    tildeSub (c :: rest) = c :: tildeSub rest := by
  rw [markerHere_eq] at h
  rw [tildeSub.eq_def]
  split
  · next heq => exact absurd heq (by simp)
  · next d tail0 heq =>
    injection heq with e1 e2
    subst e1; subst e2
    by_cases hpre : listTildeTok.isPrefixOf (c :: rest) = true
    · rw [if_pos hpre]
      rw [hpre, Bool.true_and] at h
      split

      · next g1' tail' heq2 =>
        rw [heq2] at h
        simp only [Bool.not_eq_false'] at h
        rw [if_pos h]
      · next heq2 => rfl
    · rw [if_neg hpre]

theorem tildeSub_cons_ne {c : Char} (rest : List Char) (hc : c ≠ 'L') :
    tildeSub (c :: rest) = c :: tildeSub rest := by
  apply tildeSub_cons_step
  rw [markerHere_eq]
  cases hpre : listTildeTok.isPrefixOf (c :: rest) with
  | false => rw [Bool.false_and]
  | true =>
    obtain ⟨t, ht⟩ := (listTok_isPrefixOf_iff _).mp hpre
    injection ht with h1 _
    exact absurd h1 hc

theorem head_tildeSub (s : List Char) : (tildeSub s).head? = s.head? := by
  induction s using tildeSub.induct with
  | case1 => rw [tildeSub_nil]
  | case2 c rest h g1 tail h2 hg ih =>
    have hm : markerHere (c :: rest) = false := by
      rw [markerHere_eq, h, Bool.true_and, h2]
      show (!g1.isEmpty) = false
      rw [hg]
      rfl
    rw [tildeSub_cons_step hm]
    rfl
  | case3 c rest h g1 tail h2 hg ih =>
    rw [Bool.not_eq_true] at hg
    rw [tildeSub_cons_match h h2 hg]
    obtain ⟨t, ht⟩ := (listTok_isPrefixOf_iff _).mp h
    injection ht with h1 _
    rw [h1]
    rfl
  | case4 c rest h h2 ih =>
    have hm : markerHere (c :: rest) = false := by
      rw [markerHere_eq, h, Bool.true_and, h2]
    rw [tildeSub_cons_step hm]
    rfl
  | case5 c rest h ih =>
    have hm : markerHere (c :: rest) = false := by
      rw [markerHere_eq, Bool.eq_false_iff.mpr h, Bool.false_and]
    rw [tildeSub_cons_step hm]
    rfl

theorem tilde_not_mem_tildeSub {s : List Char} (h : '~' ∉ s) : '~' ∉ tildeSub s := by
  induction s using tildeSub.induct with
  | case1 => rw [tildeSub_nil]; exact h
  | case2 c rest hpre g1 tail h2 hg ih =>
    obtain ⟨t, ht⟩ := (listTok_isPrefixOf_iff _).mp hpre
    exfalso
    apply h
    rw [ht]
    simp
  | case3 c rest hpre g1 tail h2 hg ih =>
    obtain ⟨t, ht⟩ := (listTok_isPrefixOf_iff _).mp hpre
    exfalso
    apply h
    rw [ht]
    simp
  | case4 c rest hpre h2 ih =>
    obtain ⟨t, ht⟩ := (listTok_isPrefixOf_iff _).mp hpre
    exfalso
    apply h
    rw [ht]
    simp
  | case5 c rest hpre ih =>
    rw [tildeSub_cons_step (by
      rw [markerHere_eq, Bool.eq_false_iff.mpr hpre, Bool.false_and])]
    simp only [List.mem_cons, not_or] at h ⊢
    exact ⟨h.1, ih h.2⟩

/-- The generic-type marker occurrence property from the spec: some `List~T~`
with a non-empty type name `T` free of `~`. -/
def hasMarkerP (s : List Char) : Prop :=
  ∃ a T b, s = a ++ listTildeTok ++ T ++ '~' :: b ∧ T ≠ [] ∧ '~' ∉ T

theorem markerHere_decomp {s : List Char} (h : markerHere s = true) :
    ∃ g1 tail, s = listTildeTok ++ g1 ++ '~' :: tail ∧ '~' ∉ g1 ∧ g1 ≠ [] := by
  rw [markerHere_eq, Bool.and_eq_true] at h
  obtain ⟨hpre, hmt⟩ := h
  obtain ⟨t, ht⟩ := (listTok_isPrefixOf_iff _).mp hpre
  have hdrop : s.drop 5 = t := by rw [ht]; rfl
  rw [hdrop] at hmt
  cases hfl : findTilde t with
  | none => rw [hfl] at hmt; exact absurd hmt (by simp)
  | some p =>
    obtain ⟨g1, tail⟩ := p
    rw [hfl] at hmt
    have hg : g1.isEmpty = false := by
      by_cases hg1 : g1.isEmpty = true
      · rw [show (match some (g1, tail) with
          | some (g1, _) => !g1.isEmpty
          | none => false) = !g1.isEmpty from rfl, hg1] at hmt
        exact absurd hmt (by simp)
      · rw [Bool.not_eq_true] at hg1; exact hg1
    obtain ⟨hdec, hnt⟩ := findTilde_some hfl
    refine ⟨g1, tail, ?_, hnt, ?_⟩
    · rw [ht, hdec]; rfl
    · intro hnil; rw [hnil] at hg; exact absurd hg (by simp [List.isEmpty])

theorem markerHere_of {g1 : List Char} (tail : List Char) (hnt : '~' ∉ g1)
    (hne : g1 ≠ []) :
    markerHere (listTildeTok ++ g1 ++ '~' :: tail) = true := by
  rw [markerHere_eq]
  have hpre : listTildeTok.isPrefixOf (listTildeTok ++ g1 ++ '~' :: tail) = true := by
    rw [List.isPrefixOf_iff_prefix, List.append_assoc]
    exact List.prefix_append listTildeTok _
  rw [hpre, Bool.true_and]
  have hdrop : (listTildeTok ++ g1 ++ '~' :: tail).drop 5 = g1 ++ '~' :: tail := by
    rw [List.append_assoc]; rfl
  rw [hdrop, findTilde_append tail hnt]
  show (!g1.isEmpty) = true
  cases g1 with
  | nil => exact absurd rfl hne
  | cons a l => rfl

theorem hasMarker_iff (s : List Char) : hasMarker s = true ↔ hasMarkerP s := by
  constructor
  · intro hs
    induction s with
    | nil => rw [hasMarker_nil] at hs; exact absurd hs (by simp)
    | cons c rest ih =>
      rw [hasMarker_cons] at hs
      rcases Bool.or_eq_true_iff.mp hs with h1 | h1
      · obtain ⟨g1, tail, hdec, hnt, hne⟩ := markerHere_decomp h1
        exact ⟨[], g1, tail, by rw [hdec]; simp, hne, hnt⟩
      · obtain ⟨a, T, b, hdec, hne, hnt⟩ := ih h1
        exact ⟨c :: a, T, b, by rw [hdec]; simp, hne, hnt⟩
  · rintro ⟨a, T, b, hdec, hne, hnt⟩
    subst hdec
    induction a with
    | nil =>
      rw [List.nil_append, List.append_assoc]
      cases hconc : listTildeTok ++ (T ++ '~' :: b) with
      | nil => exact absurd hconc (by simp [listTildeTok])
      | cons c rest =>
        rw [hasMarker_cons, ← hconc, ← List.append_assoc,
          markerHere_of b hnt hne, Bool.true_or]
    | cons c a ih =>
      simp only [List.cons_append] at ih ⊢
      rw [hasMarker_cons, ih, Bool.or_true]

theorem tildeSub_eq_self {s : List Char} (h : hasMarker s = false) :
    tildeSub s = s := by
  induction s with
  | nil => exact tildeSub_nil
  | cons c rest ih =>
    rw [hasMarker_cons, Bool.or_eq_false_iff] at h
    rw [tildeSub_cons_step h.1, ih h.2]

/-- The character substitution performed by the tilde-rewriting stage: a
position is unchanged or rewrites a tilde to an angle bracket. -/
def Rtl (c d : Char) : Prop := c = d ∨ (c = '~' ∧ (d = '<' ∨ d = '>'))

theorem Rtl_refl (c : Char) : Rtl c c := Or.inl rfl

theorem tildeSub_ptw (s : List Char) : Ptw Rtl s (tildeSub s) := by
  induction s using tildeSub.induct with
  | case1 => rw [tildeSub_nil]; exact Ptw.nil
  | case2 c rest h g1 tail h2 hg ih =>
    have hm : markerHere (c :: rest) = false := by
      rw [markerHere_eq, h, Bool.true_and, h2]
      show (!g1.isEmpty) = false
      rw [hg]
      rfl
    rw [tildeSub_cons_step hm]
    exact Ptw.cons (Rtl_refl c) ih
  | case3 c rest h g1 tail h2 hg ih =>
    rw [Bool.not_eq_true] at hg
    rw [tildeSub_cons_match h h2 hg]
    obtain ⟨t, ht⟩ := (listTok_isPrefixOf_iff _).mp h
    rw [ht]
    have hdrop : (c :: rest).drop 5 = t := by rw [ht]; rfl
    rw [hdrop] at h2
    obtain ⟨hdec, hnt⟩ := findTilde_some h2
    rw [hdec]
    refine Ptw.cons (Rtl_refl 'L') (Ptw.cons (Rtl_refl 'i') (Ptw.cons (Rtl_refl 's')
      (Ptw.cons (Rtl_refl 't') (Ptw.cons (Or.inr ⟨rfl, Or.inl rfl⟩) ?_))))
    exact Ptw.append (Ptw.refl Rtl_refl g1) (Ptw.cons (Or.inr ⟨rfl, Or.inr rfl⟩) ih)
  | case4 c rest h h2 ih =>
    have hm : markerHere (c :: rest) = false := by
      rw [markerHere_eq, h, Bool.true_and, h2]
    rw [tildeSub_cons_step hm]
    exact Ptw.cons (Rtl_refl c) ih
  | case5 c rest h ih =>
    have hm : markerHere (c :: rest) = false := by
      rw [markerHere_eq, Bool.eq_false_iff.mpr h, Bool.false_and]
    rw [tildeSub_cons_step hm]
    exact Ptw.cons (Rtl_refl c) ih

theorem prefix_of_append : ∀ {v tok X : List Char}, tok <+: v ++ X →
    tok <+: v ∨ v <+: tok := by
  intro v
  induction v with
  | nil => intro tok X _; exact Or.inr List.nil_prefix
  | cons c v' ih =>
    intro tok X h
    cases tok with
    | nil => exact Or.inl List.nil_prefix
    | cons t0 tok' =>
      rw [List.cons_append, List.cons_prefix_cons] at h
      obtain ⟨rfl, h2⟩ := h
      rcases ih h2 with h3 | h3
      · exact Or.inl (List.cons_prefix_cons.mpr ⟨rfl, h3⟩)
      · exact Or.inr (List.cons_prefix_cons.mpr ⟨rfl, h3⟩)

theorem tok_not_prefix_append {u : List Char} (X : List Char) (hu : '~' ∉ u)
    (hlast : u.getLast? = some '>') :
    listTildeTok.isPrefixOf (u ++ X) = false := by
  cases hb : listTildeTok.isPrefixOf (u ++ X) with
  | false => rfl
  | true =>
    exfalso
    rw [List.isPrefixOf_iff_prefix] at hb
    rcases prefix_of_append hb with h | h
    · exact hu (h.subset (by simp [listTildeTok]))
    · have : ('>' : Char) ∈ listTildeTok := h.subset (List.mem_of_mem_getLast? hlast)
      simp [listTildeTok] at this

theorem no_marker_append : ∀ {u : List Char} (X : List Char), '~' ∉ u →
    u.getLast? = some '>' → hasMarker X = false → hasMarker (u ++ X) = false := by
  intro u
  induction u with
  | nil => intro X _ hlast _; exact absurd hlast (by simp)
  | cons c u' ih =>
    intro X hu hlast hX
    rw [List.cons_append, hasMarker_cons]
    apply Bool.or_eq_false_iff.mpr
    constructor
    · rw [markerHere_eq]
      have hnp : listTildeTok.isPrefixOf ((c :: u') ++ X) = false :=
        tok_not_prefix_append X hu hlast
      rw [List.cons_append] at hnp
      rw [hnp, Bool.false_and]
    · cases u' with
      | nil => rw [List.nil_append]; exact hX
      | cons c2 u'' =>
        refine ih X ?_ ?_ hX
        · simp only [List.mem_cons, not_or] at hu
          simp only [List.mem_cons, not_or]
          exact ⟨hu.2.1, hu.2.2⟩
        · rw [List.getLast?_cons_cons] at hlast
          exact hlast

theorem tildeSub_ist {rest w : List Char}
    (hp : tildeSub rest = 'i' :: 's' :: 't' :: '~' :: w) :
    ∃ r5, rest = 'i' :: 's' :: 't' :: '~' :: r5 ∧ tildeSub r5 = w := by
  have h1 := head_tildeSub rest
  rw [hp] at h1
  cases rest with
  | nil => exact absurd h1 (by simp)
  | cons a r2 =>
    simp only [List.head?_cons, Option.some.injEq] at h1
    subst h1
    rw [tildeSub_cons_ne r2 (by decide)] at hp
    injection hp with _ hp2
    have h2 := head_tildeSub r2
    rw [hp2] at h2
    cases r2 with
    | nil => exact absurd h2 (by simp)
    | cons a r3 =>
      simp only [List.head?_cons, Option.some.injEq] at h2
      subst h2
      rw [tildeSub_cons_ne r3 (by decide)] at hp2
      injection hp2 with _ hp3
      have h3 := head_tildeSub r3
      rw [hp3] at h3
      cases r3 with
      | nil => exact absurd h3 (by simp)
      | cons a r4 =>
        simp only [List.head?_cons, Option.some.injEq] at h3
        subst h3
        rw [tildeSub_cons_ne r4 (by decide)] at hp3
        injection hp3 with _ hp4
        have h4 := head_tildeSub r4
        rw [hp4] at h4
        cases r4 with
        | nil => exact absurd h4 (by simp)
        | cons a r5 =>
          simp only [List.head?_cons, Option.some.injEq] at h4
          subst h4
          rw [tildeSub_cons_ne r5 (by decide)] at hp4
          injection hp4 with _ hp5
          exact ⟨r5, rfl, hp5⟩

theorem markerHere_tildeSub_fail {c : Char} {rest : List Char}
    (hm : markerHere (c :: rest) = false) :
    markerHere (c :: tildeSub rest) = false := by
  by_cases hpre : listTildeTok.isPrefixOf (c :: tildeSub rest) = true
  · obtain ⟨t, ht⟩ := (listTok_isPrefixOf_iff _).mp hpre
    injection ht with hc ht2
    subst hc
    obtain ⟨r5, hrest, hts⟩ := tildeSub_ist ht2
    subst hrest
    have hpre2 : listTildeTok.isPrefixOf ('L' :: 'i' :: 's' :: 't' :: '~' :: r5) = true := by
      rw [List.isPrefixOf_iff_prefix]
      exact ⟨r5, rfl⟩
    rw [markerHere_eq, hpre2, Bool.true_and] at hm
    have hdropin : ('L' :: 'i' :: 's' :: 't' :: '~' :: r5).drop 5 = r5 := rfl
    rw [hdropin] at hm
    rw [markerHere_eq, hpre, Bool.true_and]
    have hdropout : ('L' :: tildeSub ('i' :: 's' :: 't' :: '~' :: r5)).drop 5 = tildeSub r5 := by
      rw [ht2, hts]
      rfl
    rw [hdropout]
    cases hfl : findTilde r5 with
    | none =>
      have : findTilde (tildeSub r5) = none :=
        (findTilde_none_iff _).mpr (tilde_not_mem_tildeSub ((findTilde_none_iff _).mp hfl))
      rw [this]
    | some p =>
      obtain ⟨g1, t2⟩ := p
      rw [hfl] at hm
      have hg : g1.isEmpty = true := by
        by_contra hg1
        rw [Bool.not_eq_true, ← Bool.not_eq_true'] at hg1
        rw [show (match some (g1, t2) with
          | some (g1, _) => !g1.isEmpty
          | none => false) = !g1.isEmpty from rfl, hg1] at hm
        exact absurd hm (by simp)
      have hg1 : g1 = [] := List.isEmpty_iff.mp hg
      subst hg1
      obtain ⟨hdec, _⟩ := findTilde_some hfl
      rw [List.nil_append] at hdec
      subst hdec
      rw [tildeSub_cons_ne _ (by decide), findTilde_cons_tilde]
      rfl
  · rw [markerHere_eq, Bool.eq_false_iff.mpr hpre, Bool.false_and]

theorem hasMarker_tildeSub (s : List Char) : hasMarker (tildeSub s) = false := by
  induction s using tildeSub.induct with
  | case1 => rw [tildeSub_nil, hasMarker_nil]
  | case2 c rest h g1 tail h2 hg ih =>
    have hm : markerHere (c :: rest) = false := by
      rw [markerHere_eq, h, Bool.true_and, h2]
      show (!g1.isEmpty) = false
      rw [hg]
      rfl
    rw [tildeSub_cons_step hm, hasMarker_cons]
    exact Bool.or_eq_false_iff.mpr ⟨markerHere_tildeSub_fail hm, ih⟩
  | case3 c rest h g1 tail h2 hg ih =>
    rw [Bool.not_eq_true] at hg
    rw [tildeSub_cons_match h h2 hg]
    obtain ⟨_, hnt⟩ := findTilde_some h2
    have hshape : 'L' :: 'i' :: 's' :: 't' :: '<' :: (g1 ++ '>' :: tildeSub tail) =
        ('L' :: 'i' :: 's' :: 't' :: '<' :: (g1 ++ ['>'])) ++ tildeSub tail := by
      simp
    rw [hshape]
    refine no_marker_append (tildeSub tail) ?_ ?_ ih
    · intro hmem
      rw [show 'L' :: 'i' :: 's' :: 't' :: '<' :: (g1 ++ ['>']) =
        ('L' :: 'i' :: 's' :: 't' :: '<' :: []) ++ (g1 ++ ['>']) from by simp] at hmem
      rcases List.mem_append.mp hmem with hmem2 | hmem2
      · exact absurd hmem2 (by decide)
      · rcases List.mem_append.mp hmem2 with hmem3 | hmem3
        · exact hnt hmem3
        · exact absurd (List.mem_singleton.mp hmem3) (by decide)
    · have : 'L' :: 'i' :: 's' :: 't' :: '<' :: (g1 ++ ['>']) =
          ('L' :: 'i' :: 's' :: 't' :: '<' :: g1) ++ ['>'] := by simp
      rw [this, List.getLast?_concat]
  | case4 c rest h h2 ih =>
    have hm : markerHere (c :: rest) = false := by
      rw [markerHere_eq, h, Bool.true_and, h2]
    rw [tildeSub_cons_step hm, hasMarker_cons]
    exact Bool.or_eq_false_iff.mpr ⟨markerHere_tildeSub_fail hm, ih⟩
  | case5 c rest h ih =>
    have hm : markerHere (c :: rest) = false := by
      rw [markerHere_eq, Bool.eq_false_iff.mpr h, Bool.false_and]
    rw [tildeSub_cons_step hm, hasMarker_cons]
    exact Bool.or_eq_false_iff.mpr ⟨markerHere_tildeSub_fail hm, ih⟩

theorem hasMarkerP_infix {u v w : List Char} (h : hasMarkerP v) :
    hasMarkerP (u ++ v ++ w) := by
  obtain ⟨a, T, b, hdec, hne, hnt⟩ := h
  exact ⟨u ++ a, T, b ++ w, by rw [hdec]; simp, hne, hnt⟩

/-- The tail of the opening fence token `"```mermaid\n"` after its first
backtick, in the form taken by `removeAll`. -/
def fenceOpenRest : List Char :=
  btChar :: btChar :: ('m' :: 'e' :: 'r' :: 'm' :: 'a' :: 'i' :: 'd' :: '\n' :: [])

theorem fenceOpenTok_eq : fenceOpenTok = btChar :: fenceOpenRest := rfl

/-- Model of `fix_common_issues`: remove the opening fence token, remove all
`"```"`, clean the node labels, rewrite the generic-type markers, and strip the
result. -/
def fix_common_issues (s : List Char) : List Char :=
  pyStrip (tildeSub (clean_node_labels
    (removeAll btChar [btChar, btChar] (removeAll btChar fenceOpenRest s))))

theorem bt3_ne_nil : bt3 ≠ [] := by simp [bt3]

theorem fix_no_bt3 (t : List Char) :
    containsStr bt3 (fix_common_issues t) = false := by
  set s2 := removeAll btChar [btChar, btChar] (removeAll btChar fenceOpenRest t) with hs2
  have h2 : containsStr bt3 s2 = false := removeAll_bt3_no_triple _
  have h3 : containsStr bt3 (clean_node_labels s2) = false := by
    cases hb : containsStr bt3 (clean_node_labels s2) with
    | false => rfl
    | true =>
      have := Ptw.containsStr_transfer bt3_ne_nil
        (fun c d hr hd => by
          rcases hr with rfl | ⟨rfl, rfl⟩
          · rfl
          · exact absurd hd (by simp [bt3, btChar]))
        (clean_ptw s2) hb
      rw [this] at h2
      exact absurd h2 (by simp)
  have h4 : containsStr bt3 (tildeSub (clean_node_labels s2)) = false := by
    cases hb : containsStr bt3 (tildeSub (clean_node_labels s2)) with
    | false => rfl
    | true =>
      have := Ptw.containsStr_transfer bt3_ne_nil
        (fun c d hr hd => by
          rcases hr with rfl | ⟨rfl, hd2⟩
          · rfl
          · rcases hd2 with rfl | rfl <;>
              exact absurd hd (by simp [bt3, btChar]))
        (tildeSub_ptw (clean_node_labels s2)) hb
      rw [this] at h3
      exact absurd h3 (by simp)
  cases hb : containsStr bt3 (fix_common_issues t) with
  | false => rfl
  | true =>
    exfalso
    obtain ⟨u, w, hdec⟩ := pyStrip_infix (tildeSub (clean_node_labels s2))
    have : containsStr bt3 (tildeSub (clean_node_labels s2)) = true := by
      rw [hdec]
      exact containsStr_infix bt3_ne_nil hb
    rw [this] at h4
    exact absurd h4 (by simp)

theorem fix_no_badLabel (t : List Char) : ¬ hasBadLabelP (fix_common_issues t) := by
  intro hbad
  set s2 := removeAll btChar [btChar, btChar] (removeAll btChar fenceOpenRest t) with hs2
  have h3 : ¬ hasBadLabelP (clean_node_labels s2) := by
    intro hb
    have := (reSearch_iff_bad _).mpr hb
    rw [reSearch_clean s2] at this
    exact absurd this (by simp)
  have h4 : ¬ hasBadLabelP (tildeSub (clean_node_labels s2)) := by
    intro hb
    exact h3 (Ptw.bad_transfer
      (fun c d hr hd => by
        rcases hr with rfl | ⟨rfl, hd2⟩
        · rfl
        · exfalso
          rcases hd2 with rfl | rfl <;> rcases hd with h | h | h | h <;> exact absurd h (by decide))
      (fun c d hr hc => by
        rcases hr with rfl | ⟨rfl, _⟩
        · exact hc
        · exact absurd hc (by decide))
      (tildeSub_ptw (clean_node_labels s2)) hb)
  obtain ⟨u, w, hdec⟩ := pyStrip_infix (tildeSub (clean_node_labels s2))
  apply h4
  rw [hdec]
  exact hasBadLabelP_infix hbad

theorem fix_no_marker (t : List Char) : hasMarker (fix_common_issues t) = false := by
  set s3 := clean_node_labels
    (removeAll btChar [btChar, btChar] (removeAll btChar fenceOpenRest t)) with hs3
  have h4 : hasMarker (tildeSub s3) = false := hasMarker_tildeSub s3
  cases hb : hasMarker (fix_common_issues t) with
  | false => rfl
  | true =>
    exfalso
    obtain ⟨u, w, hdec⟩ := pyStrip_infix (tildeSub s3)
    have : hasMarker (tildeSub s3) = true := by
      rw [(hasMarker_iff _), hdec]
      exact hasMarkerP_infix ((hasMarker_iff _).mp hb)
    rw [this] at h4
    exact absurd h4 (by simp)

theorem fix_stripped (t : List Char) :
    pyStrip (fix_common_issues t) = fix_common_issues t := by
  rw [fix_common_issues, pyStrip_idem]

theorem fix_reSearch_false (t : List Char) :
    reSearchAux (fix_common_issues t) = false := by
  cases hb : reSearchAux (fix_common_issues t) with
  | false => rfl
  | true => exact absurd ((reSearch_iff_bad _).mp hb) (fix_no_badLabel t)

theorem containsStr_ext {p q s : List Char} (hp : p ≠ [])
    (h : containsStr (p ++ q) s = true) : containsStr p s = true := by
  obtain ⟨a, b, hdec⟩ := (containsStr_iff (by
    intro hc
    rcases List.append_eq_nil.mp hc with ⟨h1, _⟩
    exact hp h1) s).mp h
  exact (containsStr_iff hp s).mpr ⟨a, q ++ b, by rw [hdec]; simp⟩

theorem fix_no_fenceOpen (t : List Char) :
    containsStr fenceOpenTok (fix_common_issues t) = false := by
  cases hb : containsStr fenceOpenTok (fix_common_issues t) with
  | false => rfl
  | true =>
    exfalso
    have : containsStr bt3 (fix_common_issues t) = true := by
      apply containsStr_ext bt3_ne_nil
      rw [show bt3 ++ ('m' :: 'e' :: 'r' :: 'm' :: 'a' :: 'i' :: 'd' :: '\n' :: []) =
        fenceOpenTok from rfl]
      exact hb
    rw [fix_no_bt3 t] at this
    exact absurd this (by simp)

theorem fix_idem (t : List Char) :
    fix_common_issues (fix_common_issues t) = fix_common_issues t := by
  set y := fix_common_issues t with hy
  have h1 : removeAll btChar fenceOpenRest y = y := by
    apply removeAll_eq_self
    rw [← fenceOpenTok_eq]
    exact fix_no_fenceOpen t
  have h2 : removeAll btChar [btChar, btChar] y = y := by
    apply removeAll_eq_self
    rw [show btChar :: [btChar, btChar] = bt3 from rfl]
    exact fix_no_bt3 t
  have h3 : clean_node_labels y = y := clean_eq_self (fix_reSearch_false t)
  have h4 : tildeSub y = y := tildeSub_eq_self (fix_no_marker t)
  have h5 : pyStrip y = y := fix_stripped t
  conv_lhs => rw [fix_common_issues, h1, h2, h3, h4, h5]

/-- A flowchart node: dictionary with keys `id`, `label` and optional `type`
(`none` models an absent key, read with default `"default"`). -/
structure FNode where
  id : List Char
  label : List Char
  ntype : Option (List Char)

/-- A flowchart connection: dictionary with keys `from` (here `src`), `to`
(here `dst`) and optional `label` (read with default `""`). -/
structure FConn where
  src : List Char
  dst : List Char
  label : Option (List Char)

/-- Python's `label.replace("\n", " ")`. -/
def replaceNlSpace (l : List Char) : List Char :=
  l.map (fun c => if c = '\n' then ' ' else c)

/-- Left curly brace (written via its code point to keep it out of string
literals). -/
def lbrace : Char := Char.ofNat 123

/-- Right curly brace. -/
def rbrace : Char := Char.ofNat 125

/-- The flowchart node line: shape chosen from the node type as in the source
(`start`, `end` and the default give a square-bracket box, `process` a
round-bracket box, `decision` a curly-brace diamond). -/
def renderNode (n : FNode) : List Char :=
  let label := pyStrip (replaceNlSpace n.label)
  let t := n.ntype.getD ('d' :: 'e' :: 'f' :: 'a' :: 'u' :: 'l' :: 't' :: [])
  if t = 's' :: 't' :: 'a' :: 'r' :: 't' :: [] then
    ' ' :: ' ' :: ' ' :: ' ' :: (n.id ++ '[' :: '\"' :: (label ++ '\"' :: ']' :: []))
  else if t = 'e' :: 'n' :: 'd' :: [] then
    ' ' :: ' ' :: ' ' :: ' ' :: (n.id ++ '[' :: '\"' :: (label ++ '\"' :: ']' :: []))
  else if t = 'p' :: 'r' :: 'o' :: 'c' :: 'e' :: 's' :: 's' :: [] then
    ' ' :: ' ' :: ' ' :: ' ' :: (n.id ++ '(' :: '\"' :: (label ++ '\"' :: ')' :: []))
  else if t = 'd' :: 'e' :: 'c' :: 'i' :: 's' :: 'i' :: 'o' :: 'n' :: [] then
    ' ' :: ' ' :: ' ' :: ' ' :: (n.id ++ lbrace :: (label ++ rbrace :: []))
  else
    ' ' :: ' ' :: ' ' :: ' ' :: (n.id ++ '[' :: '\"' :: (label ++ '\"' :: ']' :: []))

/-- The flowchart connection line: labelled arrow when the label is present and
non-empty (Python's truthiness of the string), plain arrow otherwise. -/
def renderConn (c : FConn) : List Char :=
  let label := c.label.getD []
  if label.isEmpty then
    ' ' :: ' ' :: ' ' :: ' ' :: (c.src ++ (' ' :: '-' :: '-' :: '>' :: ' ' :: []) ++ c.dst)
  else
    ' ' :: ' ' :: ' ' :: ' ' :: (c.src ++ (' ' :: '-' :: '-' :: ' ' :: '\"' :: []) ++ label ++
      ('\"' :: ' ' :: '-' :: '-' :: '>' :: ' ' :: []) ++ c.dst)

/-- Python's `"\n".join(lines)`. -/
def joinLines (ls : List (List Char)) : List Char := List.intercalate ['\n'] ls

/-- The fixed flowchart header line. -/
def flowHeader : List Char :=
  'f' :: 'l' :: 'o' :: 'w' :: 'c' :: 'h' :: 'a' :: 'r' :: 't' :: ' ' :: 'T' :: 'D' :: []

/-- Model of `format_flowchart`: header, then one appended line per node, then
one appended line per connection, joined with line breaks. -/
def format_flowchart (nodes : List FNode) (conns : List FConn) : List Char :=
  let m1 := [flowHeader]
  let m2 := nodes.foldl (fun acc n => acc ++ [renderNode n]) m1
  let m3 := conns.foldl (fun acc c => acc ++ [renderConn c]) m2
  joinLines m3

/-- A class attribute: keys `visibility` (default `"+"`), `name`, `type`
(default `""`). -/
structure CAttr where
  visibility : Option (List Char)
  name : List Char
  atype : Option (List Char)

/-- A class method: keys `visibility` (default `"+"`), `name`, `params`
(default `""`), `return` (here `ret`, default `""`). -/
structure CMeth where
  visibility : Option (List Char)
  name : List Char
  params : Option (List Char)
  ret : Option (List Char)

/-- A class definition: key `name`, plus `attributes` and `methods` (absent
keys are the empty list). -/
structure ClassDef where
  name : List Char
  attributes : List CAttr
  methods : List CMeth

/-- The attribute line `        {visibility}{name}: {type}`. -/
def renderAttr (a : CAttr) : List Char :=
  (' ' :: ' ' :: ' ' :: ' ' :: ' ' :: ' ' :: ' ' :: ' ' :: []) ++ a.visibility.getD ['+'] ++
    a.name ++ ':' :: ' ' :: a.atype.getD []

/-- The method line `        {visibility}{name}({params}): {return}`. -/
def renderMeth (m : CMeth) : List Char :=
  (' ' :: ' ' :: ' ' :: ' ' :: ' ' :: ' ' :: ' ' :: ' ' :: []) ++ m.visibility.getD ['+'] ++
    m.name ++ '(' :: (m.params.getD [] ++ ')' :: ':' :: ' ' :: m.ret.getD [])

/-- The class opening line `    class {name} {`. -/
def classOpenLine (name : List Char) : List Char :=
  (' ' :: ' ' :: ' ' :: ' ' :: 'c' :: 'l' :: 'a' :: 's' :: 's' :: ' ' :: []) ++ name ++
    ' ' :: lbrace :: []

/-- The class closing line `    }`. -/
def classCloseLine : List Char := ' ' :: ' ' :: ' ' :: ' ' :: rbrace :: []

/-- The fixed class diagram header line. -/
def classHeader : List Char :=
  'c' :: 'l' :: 'a' :: 's' :: 's' :: 'D' :: 'i' :: 'a' :: 'g' :: 'r' :: 'a' :: 'm' :: []

/-- Model of `format_class_diagram`: header, then for each class its opening
line, attribute lines, method lines, and closing line, joined with line
breaks. -/
def format_class_diagram (classes : List ClassDef) : List Char :=
  joinLines (classes.foldl (fun acc c =>
    ((c.methods.foldl (fun a x => a ++ [renderMeth x])
      (c.attributes.foldl (fun a x => a ++ [renderAttr x])
        (acc ++ [classOpenLine c.name])))) ++ [classCloseLine])
    [classHeader])

/-- Python's `text.split('\n')`. -/
def splitLines : List Char → List (List Char)
  | [] => [[]]
  | c :: rest =>
    if c = '\n' then [] :: splitLines rest
    else
      match splitLines rest with
      | l :: ls => (c :: l) :: ls
      | [] => [[c]]

/-- The text after the first occurrence of the pattern (used for Python's
`text.split(pat)[1]`). -/
def afterFirst (pat : List Char) : List Char → List Char
  | [] => []
  | c :: rest =>
    if pat.isPrefixOf (c :: rest) then (c :: rest).drop pat.length
    else afterFirst pat rest

/-- The text before the first occurrence of the pattern (the whole text when
the pattern does not occur). -/
def beforeFirst (pat : List Char) : List Char → List Char
  | [] => []
  | c :: rest =>
    if pat.isPrefixOf (c :: rest) then [] else c :: beforeFirst pat rest

/-- The keyword opening a participant line. -/
def participantTok : List Char :=
  'p' :: 'a' :: 'r' :: 't' :: 'i' :: 'c' :: 'i' :: 'p' :: 'a' :: 'n' :: 't' :: []

/-- The sequence-diagram header token. -/
def seqTok : List Char :=
  's' :: 'e' :: 'q' :: 'u' :: 'e' :: 'n' :: 'c' :: 'e' :: 'D' :: 'i' :: 'a' :: 'g' :: 'r' :: 'a' :: 'm' :: []

/-- The long arrow token `->>`. -/
def arrow2 : List Char := '-' :: '>' :: '>' :: []

/-- The short arrow token `->`. -/
def arrow1 : List Char := '-' :: '>' :: []

/-- Number of lines whose stripped form starts with `participant`. -/
def participant_count (t : List Char) : Nat :=
  (splitLines t).countP (fun l => participantTok.isPrefixOf (pyStrip l))

/-- Number of lines containing `->>` or `->` (each such line counted once). -/
def interaction_count (t : List Char) : Nat :=
  (splitLines t).countP (fun l => containsStr arrow2 l || containsStr arrow1 l)

/-- The missing-closing-fence diagnostic message. -/
def errFence : List Char :=
  ('M' :: 'i' :: 's' :: 's' :: 'i' :: 'n' :: 'g' :: ' ' :: 'c' :: 'l' :: 'o' :: 's' :: 'i' :: 'n' :: 'g' :: ' ' :: []) ++
    bt3 ++ (' ' :: 'f' :: 'o' :: 'r' :: ' ' :: 'm' :: 'e' :: 'r' :: 'm' :: 'a' :: 'i' :: 'd' :: ' ' :: 'b' :: 'l' :: 'o' :: 'c' :: 'k' :: [])

/-- The line-breaks-in-node-labels diagnostic message. -/
def errLabel : List Char :=
  'L' :: 'i' :: 'n' :: 'e' :: ' ' :: 'b' :: 'r' :: 'e' :: 'a' :: 'k' :: 's' :: ' ' :: 'f' :: 'o' :: 'u' :: 'n' :: 'd' :: ' ' :: 'i' :: 'n' :: ' ' :: 'n' :: 'o' :: 'd' :: 'e' :: ' ' :: 'l' :: 'a' :: 'b' :: 'e' :: 'l' :: 's' :: ' ' :: '-' :: ' ' :: 'u' :: 's' :: 'e' :: ' ' :: 's' :: 'p' :: 'a' :: 'c' :: 'e' :: 's' :: ' ' :: 'i' :: 'n' :: 's' :: 't' :: 'e' :: 'a' :: 'd' :: []

/-- The participants-but-no-interactions diagnostic message. -/
def errNoInter : List Char :=
  'S' :: 'e' :: 'q' :: 'u' :: 'e' :: 'n' :: 'c' :: 'e' :: ' ' :: 'd' :: 'i' :: 'a' :: 'g' :: 'r' :: 'a' :: 'm' :: ' ' :: 'h' :: 'a' :: 's' :: ' ' :: 'p' :: 'a' :: 'r' :: 't' :: 'i' :: 'c' :: 'i' :: 'p' :: 'a' :: 'n' :: 't' :: 's' :: ' ' :: 'b' :: 'u' :: 't' :: ' ' :: 'n' :: 'o' :: ' ' :: 'i' :: 'n' :: 't' :: 'e' :: 'r' :: 'a' :: 'c' :: 't' :: 'i' :: 'o' :: 'n' :: 's' :: []

/-- Model of `validate_mermaid_syntax`: the three checks of the source, in
order.  The first fires when `"```mermaid"` occurs and no `"```"` occurs in the
segment between its first occurrence and the next one (Python's
`split("```mermaid")[1]`); the second when the label pattern matches; the third
when a sequence-diagram header is present with at least one participant line and
no arrow line. -/
def validate_mermaid_syntax (t : List Char) : List (List Char) :=
  (if containsStr fenceTokV t &&
      !(containsStr bt3 (beforeFirst fenceTokV (afterFirst fenceTokV t))) then
    [errFence]
  else []) ++
  (if reSearchAux t then [errLabel] else []) ++
  (if containsStr seqTok t then
    (if 0 < participant_count t ∧ interaction_count t = 0 then [errNoInter] else [])
  else [])

/-- Modelled from the claim's words for C9: the total number of substring
occurrences of a pattern, one per matching position. -/
def countOcc (pat : List Char) : List Char → Nat
  | [] => 0
  | c :: rest => (if pat.isPrefixOf (c :: rest) then 1 else 0) + countOcc pat rest

/-- Modelled from the claim's words for C9: the total number of substring
occurrences of the two arrow tokens `->>` and `->`. -/
def specArrowOccCount (t : List Char) : Nat := countOcc arrow2 t + countOcc arrow1 t

theorem countOcc_nil (pat : List Char) : countOcc pat [] = 0 := by rw [countOcc]

theorem countOcc_cons (pat : List Char) (c : Char) (rest : List Char) :
    countOcc pat (c :: rest) =
      (if pat.isPrefixOf (c :: rest) then 1 else 0) + countOcc pat rest := by
  rw [countOcc]

theorem countOcc_eq_zero_iff (pat : List Char) (hp : pat ≠ []) (s : List Char) :
    countOcc pat s = 0 ↔ containsStr pat s = false := by
  induction s with
  | nil =>
    rw [countOcc_nil, containsStr_nil]
    cases pat with
    | nil => exact absurd rfl hp
    | cons a l => simp [List.isEmpty]
  | cons c rest ih =>
    rw [countOcc_cons, containsStr_cons]
    cases hpre : pat.isPrefixOf (c :: rest) with
    | true => simp [hpre]
    | false =>
      rw [if_neg Bool.false_ne_true, Bool.false_or]
      simpa using ih

/-- The first line of the text (up to the first line break). -/
def firstLine : List Char → List Char
  | [] => []
  | c :: rest => if c = '\n' then [] else c :: firstLine rest

theorem splitLines_shape (s : List Char) : ∃ ls, splitLines s = firstLine s :: ls := by
  induction s with
  | nil => exact ⟨[], rfl⟩
  | cons c rest ih =>
    obtain ⟨ls, hls⟩ := ih
    by_cases hc : c = '\n'
    · subst hc
      rw [splitLines, if_pos rfl, firstLine, if_pos rfl]
      exact ⟨splitLines rest, rfl⟩
    · rw [splitLines, if_neg hc, hls, firstLine, if_neg hc]
      exact ⟨ls, rfl⟩

theorem prefix_firstLine {ps : List Char} (hnl : '\n' ∉ ps) :
    ∀ l : List Char, (ps <+: l ↔ ps <+: firstLine l) := by
  induction ps with
  | nil => intro l; constructor <;> intro _ <;> exact List.nil_prefix
  | cons p ps' ih =>
    simp only [List.mem_cons, not_or] at hnl
    intro l
    cases l with
    | nil =>
      rw [show firstLine [] = [] from rfl]
    | cons c r =>
      by_cases hc : c = '\n'
      · subst hc
        rw [firstLine, if_pos rfl]
        constructor
        · intro h
          rw [List.cons_prefix_cons] at h
          exact absurd h.1.symm hnl.1
        · intro h
          exact absurd (List.prefix_nil.mp h) (by simp)
      · rw [firstLine, if_neg hc, List.cons_prefix_cons, List.cons_prefix_cons]
        constructor
        · intro h; exact ⟨h.1, (ih hnl.2 r).mp h.2⟩
        · intro h; exact ⟨h.1, (ih hnl.2 r).mpr h.2⟩

theorem isPrefixOf_firstLine {ps : List Char} (hnl : '\n' ∉ ps) (c : Char) (r : List Char)
    (hc : c ≠ '\n') :
    ps.isPrefixOf (c :: r) = ps.isPrefixOf (c :: firstLine r) := by
  cases h1 : ps.isPrefixOf (c :: r) with
  | true =>
    have := (List.isPrefixOf_iff_prefix).mp h1
    symm
    rw [List.isPrefixOf_iff_prefix]
    have hfl : firstLine (c :: r) = c :: firstLine r := by rw [firstLine, if_neg hc]
    rw [← hfl]
    exact (prefix_firstLine hnl _).mp this
  | false =>
    symm
    cases h2 : ps.isPrefixOf (c :: firstLine r) with
    | false => rfl
    | true =>
      exfalso
      have := (List.isPrefixOf_iff_prefix).mp h2
      have hfl : firstLine (c :: r) = c :: firstLine r := by rw [firstLine, if_neg hc]
      rw [← hfl] at this
      have h3 := List.isPrefixOf_iff_prefix.mpr ((prefix_firstLine hnl _).mpr this)
      rw [h1] at h3
      exact Bool.false_ne_true h3

theorem splitLines_cons_nl (rest : List Char) :
    splitLines ('\n' :: rest) = [] :: splitLines rest := by
  rw [splitLines, if_pos rfl]

theorem splitLines_cons_ne {c : Char} {rest : List Char} (hc : c ≠ '\n')
    {l : List Char} {ls : List (List Char)} (hls : splitLines rest = l :: ls) :
    splitLines (c :: rest) = (c :: l) :: ls := by
  rw [splitLines, if_neg hc, hls]

theorem containsStr_lines {pat : List Char} (hp : pat ≠ []) (hnl : '\n' ∉ pat) :
    ∀ t : List Char, containsStr pat t = (splitLines t).any (fun l => containsStr pat l) := by
  intro t
  induction t with
  | nil =>
    rw [containsStr_nil, show splitLines [] = [[]] from rfl]
    simp only [List.any_cons, List.any_nil]
    rw [containsStr_nil, Bool.or_false]
  | cons c rest ih =>
    by_cases hc : c = '\n'
    · subst hc
      have hpre : pat.isPrefixOf ('\n' :: rest) = false := by
        cases pat with
        | nil => exact absurd rfl hp
        | cons p ps =>
          simp only [List.mem_cons, not_or] at hnl
          cases h2 : (p :: ps).isPrefixOf ('\n' :: rest) with
          | false => rfl
          | true =>
            exfalso
            have := (List.isPrefixOf_iff_prefix).mp h2
            rw [List.cons_prefix_cons] at this
            exact hnl.1 this.1.symm
      have hpe : pat.isEmpty = false := by
        cases pat with
        | nil => exact absurd rfl hp
        | cons p ps => rfl
      rw [containsStr_cons pat '\n' rest, splitLines_cons_nl]
      simp only [List.any_cons]
      rw [containsStr_nil, hpre, hpe, Bool.false_or, Bool.false_or, ih]
    · obtain ⟨ls, hls⟩ := splitLines_shape rest
      rw [containsStr_cons pat c rest, splitLines_cons_ne hc hls]
      simp only [List.any_cons]
      rw [containsStr_cons pat c (firstLine rest), ih, hls]
      simp only [List.any_cons]
      rw [isPrefixOf_firstLine hnl c rest hc, Bool.or_assoc]

theorem containsStr_arrow2_imp {l : List Char} (h : containsStr arrow2 l = true) :
    containsStr arrow1 l = true := by
  apply containsStr_ext (p := arrow1) (q := ['>'])
  · simp [arrow1]
  · rw [show arrow1 ++ ['>'] = arrow2 from rfl]
    exact h

theorem interaction_count_zero_iff (t : List Char) :
    interaction_count t = 0 ↔ containsStr arrow1 t = false := by
  rw [interaction_count, List.countP_eq_zero]
  constructor
  · intro h
    rw [containsStr_lines (by simp [arrow1]) (by decide) t]
    cases hany : (splitLines t).any (fun l => containsStr arrow1 l) with
    | false => rfl
    | true =>
      exfalso
      obtain ⟨l, hl, hcl⟩ := List.any_eq_true.mp hany
      exact (h l hl) (by rw [Bool.or_eq_true_iff]; right; exact hcl)
  · intro h l hl hcon
    have hl1 : containsStr arrow1 l = true := by
      rcases Bool.or_eq_true_iff.mp hcon with h2 | h2
      · exact containsStr_arrow2_imp h2
      · exact h2
    have : containsStr arrow1 t = true := by
      rw [containsStr_lines (by simp [arrow1]) (by decide) t]
      exact List.any_eq_true.mpr ⟨l, hl, hl1⟩
    rw [h] at this
    exact Bool.false_ne_true this

theorem specArrow_zero_iff (t : List Char) :
    specArrowOccCount t = 0 ↔ containsStr arrow1 t = false := by
  rw [specArrowOccCount]
  constructor
  · intro h
    have h1 : countOcc arrow1 t = 0 := by omega
    exact (countOcc_eq_zero_iff arrow1 (by simp [arrow1]) t).mp h1
  · intro h
    have h1 : countOcc arrow1 t = 0 := (countOcc_eq_zero_iff _ (by simp [arrow1]) t).mpr h
    have h2 : countOcc arrow2 t = 0 := by
      apply (countOcc_eq_zero_iff _ (by simp [arrow2]) t).mpr
      cases hb : containsStr arrow2 t with
      | false => rfl
      | true =>
        exfalso
        have := containsStr_arrow2_imp hb
        rw [h] at this
        exact Bool.false_ne_true this
    omega

theorem mem_ite_singleton {e x : List Char} {c : Prop} [Decidable c] :
    (e ∈ (if c then [x] else [])) ↔ (c ∧ e = x) := by
  by_cases h : c
  · rw [if_pos h]; simp [h]
  · rw [if_neg h]; simp [h]

theorem mem_ite_ite_singleton {e x : List Char} {c1 c2 : Prop}
    [Decidable c1] [Decidable c2] :
    (e ∈ (if c1 then (if c2 then [x] else []) else [])) ↔ (c1 ∧ c2 ∧ e = x) := by
  by_cases h1 : c1
  · rw [if_pos h1, mem_ite_singleton]
    simp [h1]
  · rw [if_neg h1]
    simp [h1]

theorem foldl_append_lines {α : Type} (f : α → List Char) :
    ∀ (l : List α) (init : List (List Char)),
      l.foldl (fun acc x => acc ++ [f x]) init = init ++ l.map f := by
  intro l
  induction l with
  | nil => intro init; rw [List.foldl_nil, List.map_nil, List.append_nil]
  | cons x xs ih =>
    intro init
    rw [List.foldl_cons, ih, List.map_cons, List.append_assoc]
    rfl

/-- C1: for every input text, `fix_common_issues` is idempotent, and its output
contains no fence-marker token (no three-backtick substring occurs, and both the
opening token `"```mermaid\n"` and the closing token `"```"` contain three
backticks), no double-quoted bracketed label span with an embedded raw line
break, and no leading or trailing whitespace (it is fixed by `pyStrip`). -/
theorem fix_common_issues_idempotent_and_clean (t : List Char) :
    fix_common_issues (fix_common_issues t) = fix_common_issues t ∧
    (¬ ∃ a b, fix_common_issues t = a ++ bt3 ++ b) ∧
    ¬ hasBadLabelP (fix_common_issues t) ∧
    pyStrip (fix_common_issues t) = fix_common_issues t := by
  refine ⟨fix_idem t, ?_, fix_no_badLabel t, fix_stripped t⟩
  rintro ⟨a, b, hdec⟩
  have := (containsStr_iff bt3_ne_nil _).mpr ⟨a, b, hdec⟩
  rw [fix_no_bt3 t] at this
  exact Bool.false_ne_true this

/-- C2: for every input text, `clean_node_labels` is idempotent, and its output
contains no double-quoted bracketed label span with an embedded raw line
break. -/
theorem clean_node_labels_idempotent_no_bad_span (t : List Char) :
    clean_node_labels (clean_node_labels t) = clean_node_labels t ∧
    ¬ hasBadLabelP (clean_node_labels t) := by
  refine ⟨clean_idem t, fun hb => ?_⟩
  have := (reSearch_iff_bad _).mpr hb
  rw [reSearch_clean t] at this
  exact Bool.false_ne_true this

/-- C3: `format_flowchart` output is the fixed header line `flowchart TD`
followed by exactly one node-rendering line per input node, in input order,
then exactly one connection-rendering line per input connection, in input
order. -/
theorem format_flowchart_line_structure (nodes : List FNode) (conns : List FConn) :
    format_flowchart nodes conns =
      joinLines (flowHeader :: (nodes.map renderNode ++ conns.map renderConn)) ∧
    flowHeader = ("flowchart TD").toList := by
  constructor
  · show joinLines (conns.foldl (fun acc c => acc ++ [renderConn c])
      (nodes.foldl (fun acc n => acc ++ [renderNode n]) [flowHeader])) = _
    rw [foldl_append_lines renderNode nodes [flowHeader],
      foldl_append_lines renderConn conns ([flowHeader] ++ nodes.map renderNode),
      List.append_assoc]
    rfl
  · decide

/-- C4 counterexample: the node `{id: "A", label: "Start\nHere", type: "start"}`
does not produce the output line `A["Start Here"]`: the produced line carries a
four-space indent. -/
theorem flowchart_start_line_indented_cex :
    format_flowchart [⟨['A'], ('S' :: 't' :: 'a' :: 'r' :: 't' :: '\n' :: 'H' :: 'e' :: 'r' :: 'e' :: []),
        some ('s' :: 't' :: 'a' :: 'r' :: 't' :: [])⟩] [] =
      ("flowchart TD\n    A[\"Start Here\"]").toList ∧
    ¬ format_flowchart [⟨['A'], ('S' :: 't' :: 'a' :: 'r' :: 't' :: '\n' :: 'H' :: 'e' :: 'r' :: 'e' :: []),
        some ('s' :: 't' :: 'a' :: 'r' :: 't' :: [])⟩] [] =
      ("flowchart TD\nA[\"Start Here\"]").toList := by decide

/-- C4 (amended): the shape mapping of `format_flowchart` node rendering:
`start`, `end`, the default and unknown or missing types produce a
square-bracket box, `process` a round-bracket box, `decision` a curly-brace
diamond, each with line breaks in the label replaced by spaces, whitespace
trimmed, and a four-space indent; the node
`{id: "A", label: "Start\nHere", type: "start"}` produces the output line
`    A["Start Here"]` (indented four spaces). -/
theorem renderNode_shape_mapping :
    (∀ id label ty, ty ≠ some ('p' :: 'r' :: 'o' :: 'c' :: 'e' :: 's' :: 's' :: []) →
      ty ≠ some ('d' :: 'e' :: 'c' :: 'i' :: 's' :: 'i' :: 'o' :: 'n' :: []) →
      renderNode ⟨id, label, ty⟩ =
        ' ' :: ' ' :: ' ' :: ' ' :: (id ++ '[' :: '\"' ::
          (pyStrip (replaceNlSpace label) ++ '\"' :: ']' :: []))) ∧
    (∀ id label, renderNode ⟨id, label, some ('p' :: 'r' :: 'o' :: 'c' :: 'e' :: 's' :: 's' :: [])⟩ =
      ' ' :: ' ' :: ' ' :: ' ' :: (id ++ '(' :: '\"' ::
        (pyStrip (replaceNlSpace label) ++ '\"' :: ')' :: []))) ∧
    (∀ id label, renderNode ⟨id, label, some ('d' :: 'e' :: 'c' :: 'i' :: 's' :: 'i' :: 'o' :: 'n' :: [])⟩ =
      ' ' :: ' ' :: ' ' :: ' ' :: (id ++ lbrace ::
        (pyStrip (replaceNlSpace label) ++ rbrace :: []))) ∧
    format_flowchart [⟨['A'], ('S' :: 't' :: 'a' :: 'r' :: 't' :: '\n' :: 'H' :: 'e' :: 'r' :: 'e' :: []),
        some ('s' :: 't' :: 'a' :: 'r' :: 't' :: [])⟩] [] =
      ("flowchart TD\n    A[\"Start Here\"]").toList := by
  refine ⟨?_, ?_, ?_, by decide⟩
  · intro id label ty hp hd
    cases ty with
    | none =>
      simp only [renderNode, Option.getD_none]
      rw [if_neg (by decide), if_neg (by decide), if_neg (by decide), if_neg (by decide)]
    | some v =>
      by_cases h1 : v = 's' :: 't' :: 'a' :: 'r' :: 't' :: []
      · subst h1
        simp only [renderNode, Option.getD_some]
        rw [if_pos trivial]
      · by_cases h2 : v = 'e' :: 'n' :: 'd' :: []
        · subst h2
          simp only [renderNode, Option.getD_some]
          rw [if_neg h1, if_pos trivial]
        · have h3 : v ≠ 'p' :: 'r' :: 'o' :: 'c' :: 'e' :: 's' :: 's' :: [] :=
            fun hcon => hp (by rw [hcon])
          have h4 : v ≠ 'd' :: 'e' :: 'c' :: 'i' :: 's' :: 'i' :: 'o' :: 'n' :: [] :=
            fun hcon => hd (by rw [hcon])
          simp only [renderNode, Option.getD_some]
          rw [if_neg h1, if_neg h2, if_neg h3, if_neg h4]
  · intro id label
    simp only [renderNode, Option.getD_some]
    rw [if_neg (by decide), if_neg (by decide), if_pos trivial]
  · intro id label
    simp only [renderNode, Option.getD_some]
    rw [if_neg (by decide), if_neg (by decide), if_neg (by decide), if_pos trivial]

theorem renderNode_shape_mapping_witness :
    (some ('m' :: 'y' :: 's' :: 't' :: []) ≠ some ('p' :: 'r' :: 'o' :: 'c' :: 'e' :: 's' :: 's' :: [])) ∧
    renderNode ⟨['X'], ('a' :: []), some ('m' :: 'y' :: 's' :: 't' :: [])⟩ =
      ' ' :: ' ' :: ' ' :: ' ' :: (['X'] ++ '[' :: '\"' ::
        (pyStrip (replaceNlSpace ('a' :: [])) ++ '\"' :: ']' :: [])) :=
  ⟨by decide, (renderNode_shape_mapping).1 ['X'] ('a' :: [])
    (some ('m' :: 'y' :: 's' :: 't' :: [])) (by decide) (by decide)⟩

/-- C5: `format_class_diagram` on the single class
`{name: "Foo", attributes: [{name: "x", type: "int"}], methods: [{name: "bar",
params: "", return: "void"}]}` produces exactly the five lines `classDiagram`,
`    class Foo {`, `        +x: int`, `        +bar(): void`, `    }`, with
visibility defaulting to `+` when unspecified and attributes and methods kept in
input order. -/
theorem format_class_diagram_example :
    format_class_diagram [⟨('F' :: 'o' :: 'o' :: []),
        [⟨none, ['x'], some ('i' :: 'n' :: 't' :: [])⟩],
        [⟨none, ('b' :: 'a' :: 'r' :: []), some [], some ('v' :: 'o' :: 'i' :: 'd' :: [])⟩]⟩] =
      ("classDiagram\n    class Foo \x7b\n        +x: int\n        +bar(): void\n    \x7d").toList := by
  decide

/-- C6 counterexample: a text with a sequence-diagram header, one participant
line and no arrow line, which also contains an unclosed `"```mermaid"` fence:
the validator returns the missing-fence diagnostic in addition to the
participants-but-no-interactions diagnostic, so the list is not that single
diagnostic. -/
theorem validate_sequence_extra_diag_cex :
    containsStr seqTok (("```mermaid\nsequenceDiagram\nparticipant A as Alice").toList) = true ∧
    0 < participant_count (("```mermaid\nsequenceDiagram\nparticipant A as Alice").toList) ∧
    interaction_count (("```mermaid\nsequenceDiagram\nparticipant A as Alice").toList) = 0 ∧
    validate_mermaid_syntax (("```mermaid\nsequenceDiagram\nparticipant A as Alice").toList) =
      [errFence, errNoInter] ∧
    ¬ validate_mermaid_syntax (("```mermaid\nsequenceDiagram\nparticipant A as Alice").toList) =
      [errNoInter] := by decide

/-- C6 (amended): on text with a sequence-diagram header, at least one
participant line and no arrow line, which moreover does not trigger the
unclosed-fence check and has no label span with an embedded line break, the
validator returns exactly the participants-but-no-interactions diagnostic; and
that diagnostic can appear in the validator's output only when the
sequence-diagram header is present in the text. -/
theorem validate_sequence_only_diag :
    (∀ t : List Char,
      (containsStr fenceTokV t &&
        !(containsStr bt3 (beforeFirst fenceTokV (afterFirst fenceTokV t)))) = false →
      reSearchAux t = false →
      containsStr seqTok t = true →
      0 < participant_count t →
      interaction_count t = 0 →
      validate_mermaid_syntax t = [errNoInter]) ∧
    (∀ t : List Char, errNoInter ∈ validate_mermaid_syntax t →
      containsStr seqTok t = true) := by
  constructor
  · intro t h1 h2 h3 h4 h5
    rw [ validate_mermaid_syntax, h1, h2, if_neg Bool.false_ne_true,
      if_neg Bool.false_ne_true, if_pos h3, if_pos ⟨h4, h5⟩]
    rfl
  · intro t hmem
    rw [ validate_mermaid_syntax] at hmem
    simp only [List.mem_append, mem_ite_singleton, mem_ite_ite_singleton] at hmem
    rcases hmem with (⟨_, he⟩ | ⟨_, he⟩) | ⟨h1, _, _⟩
    · exact absurd he (by decide)
    · exact absurd he (by decide)
    · exact h1

theorem validate_sequence_only_diag_witness :
    containsStr seqTok (("sequenceDiagram\nparticipant A as Alice\nparticipant B as Bob").toList) = true ∧
    validate_mermaid_syntax (("sequenceDiagram\nparticipant A as Alice\nparticipant B as Bob").toList) =
      [errNoInter] ∧
    (errNoInter ∈ validate_mermaid_syntax (("sequenceDiagram\nparticipant A as Alice\nparticipant B as Bob").toList) →
      containsStr seqTok (("sequenceDiagram\nparticipant A as Alice\nparticipant B as Bob").toList) = true) :=
  ⟨by decide, (validate_sequence_only_diag).1 _ (by decide) (by decide) (by decide)
    (by decide) (by decide), (validate_sequence_only_diag).2 _⟩

/-- C7 counterexample: the text `"  x  "` contains no generic-type marker, yet
`fix_common_issues` does not leave it unchanged (the final strip removes its
whitespace). -/
theorem fix_changes_marker_free_cex :
    hasMarker (("  x  ").toList) = false ∧
    ¬ fix_common_issues (("  x  ").toList) = ("  x  ").toList := by
  refine ⟨by decide, ?_⟩
  have h1 : removeAll btChar fenceOpenRest (("  x  ").toList) = ("  x  ").toList :=
    removeAll_eq_self (by decide)
  have h2 : removeAll btChar [btChar, btChar] (("  x  ").toList) = ("  x  ").toList :=
    removeAll_eq_self (by decide)
  have h3 : clean_node_labels (("  x  ").toList) = ("  x  ").toList :=
    clean_eq_self (by decide)
  have h4 : tildeSub (("  x  ").toList) = ("  x  ").toList :=
    tildeSub_eq_self (by decide)
  rw [fix_common_issues, h1, h2, h3, h4]
  decide

/-- C7 (amended): the tilde-rewrite stage of `fix_common_issues` rewrites every
occurrence of `List~T~` (any non-empty type name `T` without `~`) into
`List<T>`: a marker at the scan position is rewritten and the scan resumes
after it, a position without a marker match is passed over unchanged (these
two equations and `tildeSub [] = []` determine the function completely), and
consequently no marker remains anywhere in the output; marker-free text is
left unchanged; `fix_common_issues` itself maps `"List~int~"` to
`"List<int>"`, but on marker-free text its other stages (fence removal, label
cleaning, strip) may still change the text. -/
theorem tilde_rewrite_stage_spec :
    (∀ T u : List Char, T ≠ [] → '~' ∉ T →
      tildeSub (listTildeTok ++ T ++ '~' :: u) =
        'L' :: 'i' :: 's' :: 't' :: '<' :: (T ++ '>' :: tildeSub u)) ∧
    (∀ (c : Char) (rest : List Char), markerHere (c :: rest) = false →
      tildeSub (c :: rest) = c :: tildeSub rest) ∧
    (∀ s : List Char, hasMarker (tildeSub s) = false) ∧
    (∀ s : List Char, hasMarker s = false → tildeSub s = s) ∧
    fix_common_issues (("List~int~").toList) = ("List<int>").toList := by
  have hpart1 : ∀ T u : List Char, T ≠ [] → '~' ∉ T →
      tildeSub (listTildeTok ++ T ++ '~' :: u) =
        'L' :: 'i' :: 's' :: 't' :: '<' :: (T ++ '>' :: tildeSub u) := by
    intro T u hne hnt
    have hpre : listTildeTok.isPrefixOf (listTildeTok ++ T ++ '~' :: u) = true := by
      rw [List.isPrefixOf_iff_prefix, List.append_assoc]
      exact List.prefix_append listTildeTok _
    have hft : findTilde ((listTildeTok ++ T ++ '~' :: u).drop 5) = some (T, u) := by
      rw [show (listTildeTok ++ T ++ '~' :: u).drop 5 = T ++ '~' :: u from by
        rw [List.append_assoc]; rfl]
      exact findTilde_append u hnt
    have hg : T.isEmpty = false := by
      cases T with
      | nil => exact absurd rfl hne
      | cons a l => rfl
    exact tildeSub_cons_match hpre hft hg
  refine ⟨hpart1, fun c rest h => tildeSub_cons_step h,
    fun s => hasMarker_tildeSub s, fun s h => tildeSub_eq_self h, ?_⟩
  have h1 : removeAll btChar fenceOpenRest (("List~int~").toList) = ("List~int~").toList :=
    removeAll_eq_self (by decide)
  have h2 : removeAll btChar [btChar, btChar] (("List~int~").toList) = ("List~int~").toList :=
    removeAll_eq_self (by decide)
  have h3 : clean_node_labels (("List~int~").toList) = ("List~int~").toList :=
    clean_eq_self (by decide)
  have h4 : tildeSub (("List~int~").toList) = ("List<int>").toList := by
    rw [show (("List~int~").toList : List Char) =
      listTildeTok ++ ('i' :: 'n' :: 't' :: []) ++ '~' :: [] from by decide]
    rw [hpart1 ('i' :: 'n' :: 't' :: []) [] (by decide) (by decide), tildeSub_nil]
    decide
  rw [fix_common_issues, h1, h2, h3, h4]
  decide

theorem tilde_rewrite_stage_spec_witness :
    (('i' :: 'n' :: 't' :: [] : List Char) ≠ []) ∧
    tildeSub (listTildeTok ++ ('i' :: 'n' :: 't' :: []) ++ '~' :: []) =
      'L' :: 'i' :: 's' :: 't' :: '<' :: (('i' :: 'n' :: 't' :: []) ++ '>' :: tildeSub []) ∧
    markerHere ('x' :: (' ' :: ("List~int~").toList)) = false ∧
    tildeSub (('a' :: 'b' :: 'c' :: [])) = 'a' :: 'b' :: 'c' :: [] ∧
    tildeSub (("x List~int~").toList) = ("x List<int>").toList := by
  refine ⟨by decide,
    (tilde_rewrite_stage_spec).1 ('i' :: 'n' :: 't' :: []) [] (by decide) (by decide),
    by decide,
    (tilde_rewrite_stage_spec).2.2.2.1 ('a' :: 'b' :: 'c' :: []) (by decide), ?_⟩
  have hstep1 := (tilde_rewrite_stage_spec).2.1 'x' (' ' :: ("List~int~").toList) (by decide)
  have hstep2 := (tilde_rewrite_stage_spec).2.1 ' ' (("List~int~").toList) (by decide)
  have hmain := (tilde_rewrite_stage_spec).1 ('i' :: 'n' :: 't' :: []) [] (by decide) (by decide)
  rw [show (("x List~int~").toList : List Char) =
    'x' :: (' ' :: ("List~int~").toList) from by decide, hstep1, hstep2,
    show (("List~int~").toList : List Char) =
      listTildeTok ++ ('i' :: 'n' :: 't' :: []) ++ '~' :: [] from by decide,
    hmain, tildeSub_nil]
  decide

/-- C8: `clean_node_labels` terminates on every input: each pass of the rewrite
loop strictly decreases the line-break count of the text, and the loop reaches
its result within `nlCount s + 1` iterations (stated with the fuel-bounded loop
`cleanFuel`). -/
theorem clean_loop_decreasing_bounded (s : List Char) :
    (reSearchAux s = true → nlCount (reSubAux s) < nlCount s) ∧
    clean_node_labels s = cleanFuel (nlCount s + 1) (reSubAux s) := by
  refine ⟨fun h => reSubAux_nl_lt h, ?_⟩
  rw [clean_node_labels]
  exact cleanLoop_eq_fuel (nlCount s + 1) (reSubAux s) (by have := reSubAux_nl_le s; omega)

theorem clean_loop_decreasing_bounded_witness :
    reSearchAux ('[' :: '\"' :: 'a' :: '\n' :: 'b' :: '\"' :: ']' :: []) = true ∧
    nlCount (reSubAux ('[' :: '\"' :: 'a' :: '\n' :: 'b' :: '\"' :: ']' :: [])) <
      nlCount ('[' :: '\"' :: 'a' :: '\n' :: 'b' :: '\"' :: ']' :: []) :=
  ⟨by decide, (clean_loop_decreasing_bounded _).1 (by decide)⟩

/-- C9 counterexample: on `"sequenceDiagram\nA->>B: hi"` the validator's
interaction count is 1 (one line containing an arrow token), while the total
number of substring occurrences of the two arrow tokens `->>` and `->` is 2
(the line is not double-counted), so the two counts differ. -/
theorem interaction_count_not_occurrence_cex :
    interaction_count (("sequenceDiagram\nA->>B: hi").toList) = 1 ∧
    specArrowOccCount (("sequenceDiagram\nA->>B: hi").toList) = 2 := by decide

/-- C9 (amended): the validator's interaction count is the number of lines
containing an arrow token (a line containing `->>` is counted once, not twice);
nevertheless the participants-but-no-interactions diagnostic is suppressed
exactly when the total substring-occurrence count of the two arrow tokens is
non-zero, because the line count is zero exactly when the occurrence count
is. -/
theorem errNoInter_iff_spec_occ (t : List Char) :
    errNoInter ∈ validate_mermaid_syntax t ↔
      (containsStr seqTok t = true ∧ 0 < participant_count t ∧
        specArrowOccCount t = 0) := by
  rw [ validate_mermaid_syntax]
  simp only [List.mem_append, mem_ite_singleton, mem_ite_ite_singleton]
  constructor
  · rintro ((⟨_, he⟩ | ⟨_, he⟩) | ⟨h1, h2, _⟩)
    · exact absurd he (by decide)
    · exact absurd he (by decide)
    · exact ⟨h1, h2.1, (specArrow_zero_iff t).mpr ((interaction_count_zero_iff t).mp h2.2)⟩
  · rintro ⟨h1, h2, h3⟩
    right
    exact ⟨h1, ⟨h2, (interaction_count_zero_iff t).mpr ((specArrow_zero_iff t).mp h3)⟩, trivial⟩

/-- C10: for every input text, the diagnostics of the validator on the fixer's
output contain neither the missing-closing-fence diagnostic nor the
line-breaks-in-node-labels diagnostic; every diagnostic it can return there is
the participants-but-no-interactions one. -/
theorem fix_output_validates_cleanly (t : List Char) :
    errFence ∉ validate_mermaid_syntax (fix_common_issues t) ∧
    errLabel ∉ validate_mermaid_syntax (fix_common_issues t) ∧
    ( validate_mermaid_syntax (fix_common_issues t)).all (fun e => e == errNoInter) = true := by
  have hc1 : containsStr fenceTokV (fix_common_issues t) = false := by
    cases hb : containsStr fenceTokV (fix_common_issues t) with
    | false => rfl
    | true =>
      exfalso
      have : containsStr bt3 (fix_common_issues t) = true := by
        apply containsStr_ext bt3_ne_nil
        rw [show bt3 ++ ('m' :: 'e' :: 'r' :: 'm' :: 'a' :: 'i' :: 'd' :: []) = fenceTokV from rfl]
        exact hb
      rw [fix_no_bt3 t] at this
      exact Bool.false_ne_true this
  have hc2 : reSearchAux (fix_common_issues t) = false := fix_reSearch_false t
  have hv : validate_mermaid_syntax (fix_common_issues t) =
      (if containsStr seqTok (fix_common_issues t) then
        (if 0 < participant_count (fix_common_issues t) ∧
            interaction_count (fix_common_issues t) = 0 then [errNoInter] else [])
      else []) := by
    rw [ validate_mermaid_syntax, hc1, hc2, Bool.false_and, if_neg Bool.false_ne_true,
      if_neg Bool.false_ne_true, List.nil_append, List.nil_append]
  by_cases h1 : containsStr seqTok (fix_common_issues t) = true
  · by_cases h2 : 0 < participant_count (fix_common_issues t) ∧
        interaction_count (fix_common_issues t) = 0
    · rw [hv, if_pos h1, if_pos h2]
      exact ⟨by decide, by decide, by decide⟩
    · rw [hv, if_pos h1, if_neg h2]
      exact ⟨by simp, by simp, by simp⟩
  · rw [hv, if_neg h1]
    exact ⟨by simp, by simp, by simp⟩

end MermaidFormatter
